import Mathlib

/-!
# Verification of media-proxy-go against its specification

This file gives a shallow embedding, in Lean 4, of the parts of the
media-proxy-go repository that the frozen claims are about:

* the CENC fMP4 decrypter (`pkg/crypto`): atom parsing/packing, the
  `traf`/`trun`/`sidx` rewriting, key selection, and the mdat sample walk;
* the HLS manifest rewriter (`pkg/handlers/streams`): line scanning,
  URI-tag rewriting, the bypass-CDN rule and proxy URL building;
* the DASH SegmentTimeline expansion and live target-duration computation
  (`pkg/handlers/streams`, MPD handler);
* the header-parameter codec (`pkg/httpclient`);
* the decrypt endpoint's decision logic (`pkg/handlers/api`);
* the recording-catalog crash recovery (`pkg/services/recording.go`).

Modelling conventions:

* Go byte slices are `List Nat` with every element `< 256`; big-endian
  reads/writes are explicit arithmetic; 32-bit wrap-around is explicit
  `% 2^32`.
* Go strings are `List Char` (`Char` stands for one Go byte/rune; all
  string operations used by the code are byte-wise on ASCII).
* Go maps are association lists.  Where Go map *iteration order* is
  observable (key selection in the decrypter, claim C4), the enumeration
  order is an explicit parameter, since Go randomizes it.
* A Go function that can `panic` (slice index out of range) is modelled
  with an explicit `GoRes.panicked` outcome, distinct from a returned
  `error` (`GoRes.err`).
* The AES-CTR keystream is an abstract function parameter `ks`:
  the decrypter's control flow and error behaviour never depend on the
  keystream values, only on the key length check of `aes.NewCipher`,
  which is modelled exactly (16/24/32 bytes succeed).
* `float64` durations in the DASH handler are modelled as exact
  rationals; the concrete values in all theorems below are exactly
  representable in binary floating point, so `int(x)` truncation agrees
  with `Int.floor` on the nonnegative values that occur.
-/

namespace MediaProxy

/-! ## Byte-level primitives (encoding/binary big-endian) -/

/-- Byte at index `i` of a byte slice, 0 when out of range
(all in-range accesses in the model are guarded as in the source). -/
def byteAt (l : List Nat) (i : Nat) : Nat := l.getD i 0

/-- `binary.BigEndian.Uint32(data[off:])`. -/
def be32 (l : List Nat) (off : Nat) : Nat :=
  byteAt l off * 2 ^ 24 + byteAt l (off + 1) * 2 ^ 16 +
    byteAt l (off + 2) * 2 ^ 8 + byteAt l (off + 3)

/-- `binary.BigEndian.Uint64(data[off:])`. -/
def be64 (l : List Nat) (off : Nat) : Nat :=
  be32 l off * 2 ^ 32 + be32 l (off + 4)

/-- `binary.BigEndian.PutUint32`: the 4 big-endian bytes of `n % 2^32`. -/
def be32enc (n : Nat) : List Nat :=
  [n / 2 ^ 24 % 256, n / 2 ^ 16 % 256, n / 2 ^ 8 % 256, n % 256]

/-- Overwrite 4 bytes at offset `off` with the big-endian encoding of `n`
(`binary.BigEndian.PutUint32(data[off:off+4], n)` on a copy). -/
def putU32 (l : List Nat) (off : Nat) (n : Nat) : List Nat :=
  l.take off ++ be32enc n ++ l.drop (off + 4)

theorem be32enc_length (n : Nat) : (be32enc n).length = 4 := rfl

theorem be32enc_lt (n : Nat) : ∀ b ∈ be32enc n, b < 256 := by
  intro b hb
  simp only [be32enc, List.mem_cons, List.not_mem_nil, or_false] at hb
  rcases hb with h | h | h | h <;> subst h <;> exact Nat.mod_lt _ (by norm_num)

theorem byteAt_lt (l : List Nat) (hl : ∀ b ∈ l, b < 256) (i : Nat) :
    byteAt l i < 256 := by
  unfold byteAt List.getD
  rcases h' : l.get? i with _ | v
  · simp
  · simpa using hl _ (List.get?_mem h')

theorem be32_lt (l : List Nat) (hl : ∀ b ∈ l, b < 256) (off : Nat) :
    be32 l off < 2 ^ 32 := by
  have h0 := byteAt_lt l hl off
  have h1 := byteAt_lt l hl (off + 1)
  have h2 := byteAt_lt l hl (off + 2)
  have h3 := byteAt_lt l hl (off + 3)
  unfold be32
  omega

theorem byteAt_append_left (l r : List Nat) (i : Nat) (h : i < l.length) :
    byteAt (l ++ r) i = byteAt l i := by
  unfold byteAt List.getD
  rw [List.get?_append h]

theorem byteAt_append_right (l r : List Nat) (i : Nat) (h : l.length ≤ i) :
    byteAt (l ++ r) i = byteAt r (i - l.length) := by
  unfold byteAt List.getD
  rw [List.get?_append_right h]

theorem be32_be32enc_append (n : Nat) (rest : List Nat) :
    be32 (be32enc n ++ rest) 0 = n % 2 ^ 32 := by
  have h0 : byteAt (be32enc n ++ rest) 0 = n / 2 ^ 24 % 256 := by
    rw [byteAt_append_left _ _ _ (by simp [be32enc])]; rfl
  have h1 : byteAt (be32enc n ++ rest) 1 = n / 2 ^ 16 % 256 := by
    rw [byteAt_append_left _ _ _ (by simp [be32enc])]; rfl
  have h2 : byteAt (be32enc n ++ rest) 2 = n / 2 ^ 8 % 256 := by
    rw [byteAt_append_left _ _ _ (by simp [be32enc])]; rfl
  have h3 : byteAt (be32enc n ++ rest) 3 = n % 256 := by
    rw [byteAt_append_left _ _ _ (by simp [be32enc])]; rfl
  unfold be32
  rw [h0, h1, h2, h3]
  omega

/-! ## fMP4 atom parsing and packing (`pkg/crypto`, `parseAtoms` / `packAtom`) -/

/-- One parsed top-level box: `mp4Atom{atomType, size, data}` from the source.
The fourCC is kept as its 4 raw bytes. -/
structure mp4Atom where
  atomType : List Nat
  size : Nat
  data : List Nat
  deriving DecidableEq

def trafT : List Nat := [116, 114, 97, 102]  -- "traf"
def tfhdT : List Nat := [116, 102, 104, 100]  -- "tfhd"
def trunT : List Nat := [116, 114, 117, 110]  -- "trun"
def sencT : List Nat := [115, 101, 110, 99]  -- "senc"
def saizT : List Nat := [115, 97, 105, 122]  -- "saiz"
def saioT : List Nat := [115, 97, 105, 111]  -- "saio"
def moovT : List Nat := [109, 111, 111, 118]  -- "moov"
def moofT : List Nat := [109, 111, 111, 102]  -- "moof"
def sidxT : List Nat := [115, 105, 100, 120]  -- "sidx"
def mdatT : List Nat := [109, 100, 97, 116]  -- "mdat"
def trakT : List Nat := [116, 114, 97, 107]  -- "trak"
def psshT : List Nat := [112, 115, 115, 104]  -- "pssh"
def mdiaT : List Nat := [109, 100, 105, 97]  -- "mdia"
def minfT : List Nat := [109, 105, 110, 102]  -- "minf"
def stblT : List Nat := [115, 116, 98, 108]  -- "stbl"
def stsdT : List Nat := [115, 116, 115, 100]  -- "stsd"
def sinfT : List Nat := [115, 105, 110, 102]  -- "sinf"
def schiT : List Nat := [115, 99, 104, 105]  -- "schi"
def tencT : List Nat := [116, 101, 110, 99]  -- "tenc"
def schmT : List Nat := [115, 99, 104, 109]  -- "schm"
def frmaT : List Nat := [102, 114, 109, 97]  -- "frma"
def mp4aT : List Nat := [109, 112, 52, 97]  -- "mp4a"
def encaT : List Nat := [101, 110, 99, 97]  -- "enca"
def mp4vT : List Nat := [109, 112, 52, 118]  -- "mp4v"
def encvT : List Nat := [101, 110, 99, 118]  -- "encv"
def avc1T : List Nat := [97, 118, 99, 49]  -- "avc1"
def hev1T : List Nat := [104, 101, 118, 49]  -- "hev1"
def hvc1T : List Nat := [104, 118, 99, 49]  -- "hvc1"

/-- `parseAtoms` from the source: scan `data`, at each position read a
32-bit size and 4-byte type; a size of 1 with 16 bytes available switches
to the 64-bit size; stop (without error) on a size `< 8` or one that
overruns the buffer. This list-valued version is total: on a 64-bit-size
atom declaring a size in `[8, 15]` it emits an empty payload, whereas the
Go slice `data[pos+16 : pos+size]` has its lower bound above its upper
bound and panics — `parseAtomsR` below is the same loop with that panic
made explicit, and `parseAtomsGoR_ok` shows the two agree wherever the
panic does not fire. -/
def parseAtomsGo : Nat → List Nat → List mp4Atom
  | 0, _ => []
  | fuel + 1, data =>
    if 8 ≤ data.length then
      if be32 data 0 = 1 ∧ 16 ≤ data.length then
        if be64 data 8 < 8 ∨ data.length < be64 data 8 then []
        else
          { atomType := (data.drop 4).take 4
            size := be64 data 8
            data := (data.drop 16).take (be64 data 8 - 16) } ::
            parseAtomsGo fuel (data.drop (be64 data 8))
      else
        if be32 data 0 < 8 ∨ data.length < be32 data 0 then []
        else
          { atomType := (data.drop 4).take 4
            size := be32 data 0
            data := (data.drop 8).take (be32 data 0 - 8) } ::
            parseAtomsGo fuel (data.drop (be32 data 0))
    else []

/-- Any fuel past the buffer length gives the same parse (each step
consumes at least 8 bytes). -/
theorem parseAtomsGo_fuel_irrel :
    ∀ (f1 : Nat), ∀ (f2 : Nat) (data : List Nat), data.length < f1 →
      data.length < f2 → parseAtomsGo f1 data = parseAtomsGo f2 data := by
  intro f1
  induction f1 with
  | zero => intro f2 data h1 _; omega
  | succ f ih =>
    intro f2 data h1 h2
    match f2, h2 with
    | f2' + 1, h2 =>
      show parseAtomsGo (f + 1) data = parseAtomsGo (f2' + 1) data
      simp only [parseAtomsGo]
      by_cases h8 : 8 ≤ data.length
      · simp only [if_pos h8]
        by_cases hw : be32 data 0 = 1 ∧ 16 ≤ data.length
        · simp only [if_pos hw]
          by_cases hsz : be64 data 8 < 8 ∨ data.length < be64 data 8
          · simp only [if_pos hsz]
          · simp only [if_neg hsz]
            push_neg at hsz
            have : (data.drop (be64 data 8)).length < f := by
              simp only [List.length_drop]; omega
            have : (data.drop (be64 data 8)).length < f2' := by
              simp only [List.length_drop]; omega
            rw [ih _ _ (by assumption) (by assumption)]
        · simp only [if_neg hw]
          by_cases hsz : be32 data 0 < 8 ∨ data.length < be32 data 0
          · simp only [if_pos hsz]
          · simp only [if_neg hsz]
            push_neg at hsz
            have : (data.drop (be32 data 0)).length < f := by
              simp only [List.length_drop]; omega
            have : (data.drop (be32 data 0)).length < f2' := by
              simp only [List.length_drop]; omega
            rw [ih _ _ (by assumption) (by assumption)]
      · simp only [if_neg h8]

/-- `parseAtoms` from the source (the fuel is an upper bound on the
number of iterations of the Go loop, which always terminates). -/
def parseAtoms (data : List Nat) : List mp4Atom :=
  parseAtomsGo (data.length + 1) data

/-- The Go loop equation of `parseAtoms`. -/
theorem parseAtoms_unfold (data : List Nat) :
    parseAtoms data =
      if 8 ≤ data.length then
        if be32 data 0 = 1 ∧ 16 ≤ data.length then
          if be64 data 8 < 8 ∨ data.length < be64 data 8 then []
          else
            { atomType := (data.drop 4).take 4
              size := be64 data 8
              data := (data.drop 16).take (be64 data 8 - 16) } ::
              parseAtoms (data.drop (be64 data 8))
        else
          if be32 data 0 < 8 ∨ data.length < be32 data 0 then []
          else
            { atomType := (data.drop 4).take 4
              size := be32 data 0
              data := (data.drop 8).take (be32 data 0 - 8) } ::
              parseAtoms (data.drop (be32 data 0))
      else [] := by
  show parseAtomsGo (data.length + 1) data = _
  simp only [parseAtomsGo]
  by_cases h8 : 8 ≤ data.length
  · simp only [if_pos h8]
    by_cases hw : be32 data 0 = 1 ∧ 16 ≤ data.length
    · simp only [if_pos hw]
      by_cases hsz : be64 data 8 < 8 ∨ data.length < be64 data 8
      · simp only [if_pos hsz]
      · simp only [if_neg hsz]
        push_neg at hsz
        rw [parseAtomsGo_fuel_irrel data.length
          ((data.drop (be64 data 8)).length + 1) (data.drop (be64 data 8))
          (by simp only [List.length_drop]; omega) (by omega)]
        rfl
    · simp only [if_neg hw]
      by_cases hsz : be32 data 0 < 8 ∨ data.length < be32 data 0
      · simp only [if_pos hsz]
      · simp only [if_neg hsz]
        push_neg at hsz
        rw [parseAtomsGo_fuel_irrel data.length
          ((data.drop (be32 data 0)).length + 1) (data.drop (be32 data 0))
          (by simp only [List.length_drop]; omega) (by omega)]
        rfl
  · simp only [if_neg h8]

/-- 4-byte fourCC field as written by `packAtom`: Go's `copy` into a
4-byte zeroed window truncates or zero-pads. -/
def fit4 (t : List Nat) : List Nat := (t ++ List.replicate 4 0).take 4

theorem fit4_eq (t : List Nat) (ht : t.length = 4) : fit4 t = t := by
  unfold fit4
  rw [List.take_append_of_le_length (by omega), List.take_of_length_le (by omega)]

/-- `packAtom` from the source: 32-bit size `len(data)+8`, the fourCC,
then the payload. -/
def packAtom (atomType : List Nat) (data : List Nat) : List Nat :=
  be32enc (data.length + 8) ++ fit4 atomType ++ data

theorem fit4_length (t : List Nat) : (fit4 t).length = 4 := by
  simp only [fit4, List.length_take, List.length_append, List.length_replicate]
  omega

theorem packAtom_length (t d : List Nat) :
    (packAtom t d).length = d.length + 8 := by
  simp only [packAtom, List.length_append, fit4_length, be32enc_length]
  omega

/-- Re-parsing a packed atom at the head of a buffer yields exactly that
atom (with its size recomputed as `payload+8`) followed by the parse of
the remainder. -/
theorem parseAtoms_packAtom_append (t d rest : List Nat)
    (ht : t.length = 4) (hd : d.length + 8 < 2 ^ 32) :
    parseAtoms (packAtom t d ++ rest) =
      { atomType := t, size := d.length + 8, data := d } :: parseAtoms rest := by
  have henc : (be32enc (d.length + 8)).length = 4 := rfl
  have hpack : packAtom t d ++ rest = be32enc (d.length + 8) ++ (t ++ (d ++ rest)) := by
    simp only [packAtom, fit4_eq t ht, List.append_assoc]
  have hlen : (packAtom t d ++ rest).length = d.length + 8 + rest.length := by
    rw [List.length_append, packAtom_length t d]
  have hsize0 : be32 (packAtom t d ++ rest) 0 = d.length + 8 := by
    rw [hpack, be32_be32enc_append, Nat.mod_eq_of_lt hd]
  have hdrop4 : (packAtom t d ++ rest).drop 4 = t ++ (d ++ rest) := by
    rw [hpack]
    nth_rewrite 1 [show (4 : Nat) = (be32enc (d.length + 8)).length from rfl]
    simp
  have htype : ((packAtom t d ++ rest).drop 4).take 4 = t := by
    rw [hdrop4, List.take_append_of_le_length (by omega),
      List.take_of_length_le (by omega)]
  have hdrop8 : (packAtom t d ++ rest).drop 8 = d ++ rest := by
    have hpack2 : packAtom t d ++ rest = (be32enc (d.length + 8) ++ t) ++ (d ++ rest) := by
      rw [hpack]; simp
    have h8len : (be32enc (d.length + 8) ++ t).length = 8 := by
      rw [List.length_append, henc, ht]
    rw [hpack2]
    nth_rewrite 1 [← h8len]
    simp
  have hdata : ((packAtom t d ++ rest).drop 8).take (d.length + 8 - 8) = d := by
    rw [hdrop8, Nat.add_sub_cancel, List.take_append_of_le_length (le_refl _),
      List.take_of_length_le (le_refl _)]
  have htail : (packAtom t d ++ rest).drop (d.length + 8) = rest := by
    rw [show d.length + 8 = (packAtom t d).length from (packAtom_length t d).symm]
    simp
  rw [parseAtoms_unfold, if_pos (by omega)]
  rw [if_neg (by rw [hsize0]; rintro ⟨h1, -⟩; omega)]
  rw [if_neg (by rw [hsize0, hlen]; omega)]
  simp only [hsize0, htype, hdata, htail]

/-! ## CENC decrypter (`pkg/crypto`, `MP4Decrypter`) -/

/-- Outcome of a Go computation: a value, a returned `error`, or a
runtime panic (e.g. a slice index out of range). -/
inductive GoRes (α : Type) where
  | ok : α → GoRes α
  | err : String → GoRes α
  | panicked : GoRes α
  deriving DecidableEq

instance : Monad GoRes where
  pure := GoRes.ok
  bind x f := match x with
    | .ok a => f a
    | .err e => .err e
    | .panicked => .panicked

/-- `sampleAuxInfo` from the source. -/
structure sampleAuxInfo where
  isEncrypted : Bool
  iv : List Nat
  subSamples : List (Nat × Nat)  -- (clearBytes u16, encryptedBytes u32)
  deriving DecidableEq

/-- The mutable fields of `MP4Decrypter` other than the key map (which is
set at construction and never mutated; it is passed separately). -/
structure DecState where
  currentKey : Option (List Nat)
  trunSampleSizes : List Nat
  currentSampleInfo : List sampleAuxInfo
  encryptionOverhead : Nat
  deriving DecidableEq

def initState : DecState :=
  { currentKey := none, trunSampleSizes := [], currentSampleInfo := [],
    encryptionOverhead := 0 }

/-- The per-sample field walk of `processTrun`: starting at `offset`,
for each of the `count` samples skip/read the optional 4-byte fields
according to `flags`; a sample whose fields start at or past the end of
the buffer (and every later one) keeps the zero size the Go code
pre-allocated. -/
def trunSizesLoop (flags : Nat) (data : List Nat) : Nat → Nat → List Nat
  | _, 0 => []
  | offset, n + 1 =>
    if data.length ≤ offset then List.replicate (n + 1) 0
    else
      let o1 := offset + (if flags &&& 0x100 ≠ 0 then 4 else 0)
      let sz := if flags &&& 0x200 ≠ 0 ∧ o1 + 4 ≤ data.length then be32 data o1 else 0
      let o2 := if flags &&& 0x200 ≠ 0 ∧ o1 + 4 ≤ data.length then o1 + 4 else o1
      let o3 := o2 + (if flags &&& 0x400 ≠ 0 then 4 else 0) +
        (if flags &&& 0x800 ≠ 0 then 4 else 0)
      sz :: trunSizesLoop flags data o3 n

/-- `processTrun` from the source: returns the sample count and the
extracted per-sample sizes (the new `d.trunSampleSizes`); when the
payload is shorter than 8 bytes it returns 0 and leaves
`d.trunSampleSizes` untouched. -/
def processTrun (st : DecState) (trunData : List Nat) : DecState × Nat :=
  if trunData.length < 8 then (st, 0)
  else
    let flags := be32 trunData 0 &&& 0xFFFFFF
    let sampleCount := be32 trunData 4
    let offset0 := 8 + (if flags &&& 0x1 ≠ 0 then 4 else 0) +
      (if flags &&& 0x4 ≠ 0 then 4 else 0)
    ({ st with trunSampleSizes := trunSizesLoop flags trunData offset0 sampleCount },
      sampleCount)

/-- The payload rewrite of `modifyTrun`: when the data-offset-present
flag (0x000001) is set and the payload has at least 12 bytes, the 32-bit
`data_offset` at bytes 8..11 is replaced by its value minus the
encryption overhead (32-bit wrap-around arithmetic, as Go's `int32`
subtraction reinterpreted through `uint32`). -/
def modifyTrunData (overhead : Nat) (data : List Nat) : List Nat :=
  let flags := be32 data 0 &&& 0xFFFFFF
  if flags &&& 0x1 ≠ 0 ∧ 12 ≤ data.length then
    putU32 data 8 ((be32 data 8 + 2 ^ 32 - overhead % 2 ^ 32) % 2 ^ 32)
  else data

/-- `modifyTrun` from the source. -/
def modifyTrun (overhead : Nat) (trun : mp4Atom) : List Nat :=
  packAtom trunT (modifyTrunData overhead trun.data)

/-- Inner subsample loop of `parseSenc`. -/
def sencSubLoop (data : List Nat) : Nat → Nat → List (Nat × Nat) × Nat
  | pos, 0 => ([], pos)
  | pos, j + 1 =>
    if pos + 6 ≤ data.length then
      let entry := (be32 data pos / 2 ^ 16, be32 data (pos + 2))
      let (rest, pos') := sencSubLoop data (pos + 6) j
      (entry :: rest, pos')
    else ([], pos)

/-- Outer sample loop of `parseSenc`. -/
def sencSampleLoop (flags : Nat) (data : List Nat) : Nat → Nat → List sampleAuxInfo
  | _, 0 => []
  | pos, n + 1 =>
    if pos + 8 ≤ data.length then
      let iv := (data.drop pos).take 8
      let pos1 := pos + 8
      let (subs, pos2) :=
        if flags &&& 0x2 ≠ 0 ∧ pos1 + 2 ≤ data.length then
          let subCount := be32 data pos1 / 2 ^ 16  -- BigEndian.Uint16
          sencSubLoop data (pos1 + 2) subCount
        else ([], pos1)
      { isEncrypted := true, iv := iv, subSamples := subs } ::
        sencSampleLoop flags data pos2 n
    else []

/-- `parseSenc` from the source: reads version/flags; a version-0 box
carries its own 32-bit sample count which overrides the one from `trun`;
then per sample an 8-byte IV and, when flag 0x000002 is set, a 16-bit
subsample count followed by (u16 clear, u32 encrypted) pairs. -/
def parseSenc (sencData : List Nat) (sampleCount : Nat) : List sampleAuxInfo :=
  if sencData.length < 4 then []
  else
    let versionFlags := be32 sencData 0
    let flags := versionFlags &&& 0xFFFFFF
    if versionFlags / 2 ^ 24 = 0 then
      if 4 + 4 ≤ sencData.length then
        sencSampleLoop flags sencData 8 (be32 sencData 4)
      else []
    else sencSampleLoop flags sencData 4 sampleCount

/-- `getKeyForTrack` from the source, with the enumeration order of the
Go key map made explicit as the order of the association list (Go
randomizes map iteration order, so this order is *not* reproducible
between runs).  With ≥ 2 keys and `trackID = 0` the Go expression
`keys[(trackID-1) % len(keys)]` indexes at `-1` and panics. -/
def getKeyForTrack (keyMap : List (List Char × List Nat)) (trackID : Nat) :
    GoRes (Option (List Nat)) :=
  if keyMap.length = 0 then .ok none
  else if keyMap.length = 1 then .ok (keyMap.head?.map Prod.snd)
  else
    let keys := keyMap.map Prod.snd
    if trackID = 0 then .panicked
    else .ok (some (keys.getD ((trackID - 1) % keys.length) []))

/-- One child of `traf`, as emitted by the loop body of `processTraf`
(`senc`, `saiz`, `saio` produce no output bytes). -/
def trafEmit (overhead : Nat) (a : mp4Atom) : List Nat :=
  if a.atomType = sencT ∨ a.atomType = saizT ∨ a.atomType = saioT then []
  else if a.atomType = trunT then modifyTrun overhead a
  else packAtom a.atomType a.data

/-- `d.encryptionOverhead` as computed by the first loop of
`processTraf`: the sum of the `size` fields of `senc`, `saiz` and `saio`
children. -/
def encOverhead (atoms : List mp4Atom) : Nat :=
  atoms.foldl
    (fun acc a =>
      if a.atomType = sencT ∨ a.atomType = saizT ∨ a.atomType = saioT then
        acc + a.size
      else acc) 0

/-- The main loop of `processTraf`, threading (`tfhd`, `sampleCount`,
`sampleInfo`, trun sizes) through the children exactly as the Go loop
mutates its locals and `d.trunSampleSizes`. -/
def trafLoop (overhead : Nat) (st : DecState) :
    List mp4Atom → Option mp4Atom → Nat → List sampleAuxInfo →
      DecState × Option mp4Atom × List sampleAuxInfo
  | [], tfhd, _, info => (st, tfhd, info)
  | a :: rest, tfhd, sampleCount, info =>
    if a.atomType = tfhdT then
      trafLoop overhead st rest (some a) sampleCount info
    else if a.atomType = trunT then
      let (st', n) := processTrun st a.data
      trafLoop overhead st' rest tfhd n info
    else if a.atomType = sencT then
      trafLoop overhead st rest tfhd sampleCount (parseSenc a.data sampleCount)
    else
      trafLoop overhead st rest tfhd sampleCount info

/-- `processTraf` from the source: compute the encryption overhead, walk
the children (emitting `tfhd` and other boxes unchanged, `trun` through
`modifyTrun`, and dropping `senc`/`saiz`/`saio` while parsing `senc`),
then select the per-track key from the track id in the last `tfhd`. -/
def processTraf (keyMap : List (List Char × List Nat)) (st : DecState)
    (traf : mp4Atom) : GoRes (DecState × List Nat) :=
  let atoms := parseAtoms traf.data
  let overhead := encOverhead atoms
  let newData := (atoms.map (trafEmit overhead)).flatten
  let st0 := { st with encryptionOverhead := overhead }
  let (st1, tfhd, info) := trafLoop overhead st0 atoms none 0 []
  match tfhd with
  | some t =>
    if 8 ≤ t.data.length then do
      let key ← getKeyForTrack keyMap (be32 t.data 4)
      return ({ st1 with currentKey := key, currentSampleInfo := info },
        packAtom trafT newData)
    else return (st1, packAtom trafT newData)
  | none => return (st1, packAtom trafT newData)

/-- `extractCodecFormat` from the source: the first 4 payload bytes of
the first `frma` child of `sinf` (empty when absent). -/
def extractCodecFormat (sinfData : List Nat) : List Nat :=
  match (parseAtoms sinfData).find? (fun a => a.atomType = frmaT ∧ 4 ≤ a.data.length) with
  | some a => a.data.take 4
  | none => []

/-- Fixed-prefix length of a sample entry by fourCC
(`processSampleEntry`, first switch). -/
def sampleEntryFixedSize (t : List Nat) : Nat :=
  if t = mp4aT ∨ t = encaT then 28
  else if t = mp4vT ∨ t = encvT ∨ t = avc1T ∨ t = hev1T ∨ t = hvc1T then 78
  else 16

/-- Child fold of `processSampleEntry`: accumulate emitted bytes and the
codec fourCC (each `sinf` overwrites it, even with an empty result). -/
def sampleEntryLoop : List mp4Atom → List Nat × List Nat → List Nat × List Nat
  | [], acc => acc
  | a :: rest, (bytes, codec) =>
    if a.atomType = sinfT then
      sampleEntryLoop rest (bytes, extractCodecFormat a.data)
    else if a.atomType = schiT ∨ a.atomType = tencT ∨ a.atomType = schmT then
      sampleEntryLoop rest (bytes, codec)
    else
      sampleEntryLoop rest (bytes ++ packAtom a.atomType a.data, codec)

/-- `processSampleEntry` from the source. -/
def processSampleEntry (entry : mp4Atom) : List Nat :=
  let fixedSize := min (sampleEntryFixedSize entry.atomType) entry.data.length
  let (childBytes, codec) :=
    sampleEntryLoop (parseAtoms (entry.data.drop fixedSize)) ([], [])
  let newType := if codec ≠ [] then codec else entry.atomType
  packAtom newType (entry.data.take fixedSize ++ childBytes)

/-- `processStsd` from the source. -/
def processStsd (stsdData : List Nat) : List Nat :=
  if stsdData.length < 8 then packAtom stsdT stsdData
  else
    let entryCount := be32 stsdData 4
    let atoms := parseAtoms (stsdData.drop 8)
    packAtom stsdT
      (stsdData.take 8 ++ ((atoms.take entryCount).map processSampleEntry).flatten)

/-- `processStbl` from the source. -/
def processStbl (stblData : List Nat) : List Nat :=
  packAtom stblT
    ((parseAtoms stblData).map (fun a =>
      if a.atomType = stsdT then processStsd a.data
      else packAtom a.atomType a.data)).flatten

/-- `processMinf` from the source. -/
def processMinf (minfData : List Nat) : List Nat :=
  packAtom minfT
    ((parseAtoms minfData).map (fun a =>
      if a.atomType = stblT then processStbl a.data
      else packAtom a.atomType a.data)).flatten

/-- `processMdia` from the source. -/
def processMdia (mdiaData : List Nat) : List Nat :=
  packAtom mdiaT
    ((parseAtoms mdiaData).map (fun a =>
      if a.atomType = minfT then processMinf a.data
      else packAtom a.atomType a.data)).flatten

/-- `processTrak` from the source. -/
def processTrak (trakData : List Nat) : List Nat :=
  packAtom trakT
    ((parseAtoms trakData).map (fun a =>
      if a.atomType = mdiaT then processMdia a.data
      else packAtom a.atomType a.data)).flatten

/-- `processMoov` from the source: recurse into `trak`, drop `pssh`,
copy everything else. -/
def processMoov (moovData : List Nat) : List Nat :=
  packAtom moovT
    ((parseAtoms moovData).map (fun a =>
      if a.atomType = trakT then processTrak a.data
      else if a.atomType = psshT then []
      else packAtom a.atomType a.data)).flatten

/-- `processSidx` from the source: with at least 36 payload bytes,
subtract the encryption overhead from the low 31 bits of the 32-bit word
at payload offset 32 (the first reference's `referenced_size`),
preserving the top bit via Go's `(referenceType << 31) | newSize`
(32-bit wrap-around subtraction on `uint32`). -/
def processSidx (overhead : Nat) (sidxData : List Nat) : List Nat :=
  if sidxData.length < 36 then packAtom sidxT sidxData
  else
    let currentSize := be32 sidxData 32
    let referenceType := currentSize / 2 ^ 31
    let referencedSize := currentSize % 2 ^ 31
    let newReferencedSize := (referencedSize + 2 ^ 32 - overhead % 2 ^ 32) % 2 ^ 32
    let newSize := referenceType * 2 ^ 31 ||| newReferencedSize
    packAtom sidxT (putU32 sidxData 32 newSize)

/-- XOR a byte run against the abstract AES-CTR keystream `ks`, starting
at keystream position `p` (the CTR stream state advances one position
per encrypted byte and is shared across the subsamples of one sample,
exactly as one `cipher.NewCTR` stream object in the source). -/
def xorKeyStream (ks : List Nat → List Nat → Nat → Nat)
    (key iv : List Nat) : Nat → List Nat → List Nat
  | _, [] => []
  | p, b :: rest => (b ^^^ ks key iv p) :: xorKeyStream ks key iv (p + 1) rest

/-- `aes.NewCipher` succeeds exactly on 16/24/32-byte keys. -/
def aesKeyLenOk (key : List Nat) : Prop :=
  key.length = 16 ∨ key.length = 24 ∨ key.length = 32

instance (key : List Nat) : Decidable (aesKeyLenOk key) := by
  unfold aesKeyLenOk; infer_instance

/-- Subsample loop of `processSample`: copy `clear` bytes, decrypt `enc`
bytes (clamped to the sample), threading the output, the sample offset
and the keystream position. -/
def subSampleLoop (ks : List Nat → List Nat → Nat → Nat) (key iv : List Nat)
    (sample : List Nat) :
    List (Nat × Nat) → Nat → Nat → List Nat × Nat × Nat
  | [], offset, spos => ([], offset, spos)
  | (clear, enc) :: rest, offset, spos =>
    let clearEnd := min (offset + clear) sample.length
    let clearPart := (sample.drop offset).take (clearEnd - offset)
    let encEnd := min (clearEnd + enc) sample.length
    let encPart :=
      xorKeyStream ks key iv spos ((sample.drop clearEnd).take (encEnd - clearEnd))
    let (tail, o', s') :=
      subSampleLoop ks key iv sample rest encEnd (spos + (encEnd - clearEnd))
    (clearPart ++ encPart ++ tail, o', s')

/-- `processSample` from the source: pass through unencrypted samples;
pad the IV to 16 bytes; `aes.NewCipher` is the only error; full-sample
or subsample AES-CTR decryption with one continuous keystream. -/
def processSample (ks : List Nat → List Nat → Nat → Nat)
    (key : Option (List Nat)) (info : sampleAuxInfo) (sample : List Nat) :
    GoRes (List Nat) :=
  match key with
  | none => .ok sample
  | some k =>
    if ¬info.isEncrypted then .ok sample
    else
      let iv := (info.iv ++ List.replicate 16 0).take 16
      if ¬aesKeyLenOk k then .err "failed to create cipher"
      else if info.subSamples = [] then .ok (xorKeyStream ks k iv 0 sample)
      else
        let (bytes, offset, spos) := subSampleLoop ks k iv sample info.subSamples 0 0
        if offset < sample.length then
          .ok (bytes ++ xorKeyStream ks k iv spos (sample.drop offset))
        else .ok bytes

/-- Sample walk of `decryptMdat`: the i-th sample takes the i-th
`trun`-derived size (or the rest of the buffer when the list is
exhausted), clamped to the remaining bytes; stop once `pos` reaches the
end. -/
def mdatLoop (ks : List Nat → List Nat → Nat → Nat) (key : List Nat)
    (sizes : List Nat) (data : List Nat) :
    List sampleAuxInfo → Nat → Nat → GoRes (List Nat)
  | [], _, _ => .ok []
  | info :: rest, i, pos =>
    if data.length ≤ pos then .ok []
    else
      let sampleSize0 := if i < sizes.length then sizes.getD i 0 else data.length - pos
      let sampleSize :=
        if data.length < pos + sampleSize0 then data.length - pos else sampleSize0
      let sample := (data.drop pos).take sampleSize
      do
        let dec ← processSample ks (some key) info sample
        let tail ← mdatLoop ks key sizes data rest (i + 1) (pos + sampleSize)
        return dec ++ tail

/-- `decryptMdat` from the source. -/
def decryptMdat (ks : List Nat → List Nat → Nat → Nat) (st : DecState)
    (mdatData : List Nat) : GoRes (List Nat) :=
  match st.currentKey with
  | none => .ok (packAtom mdatT mdatData)
  | some key =>
    if st.currentSampleInfo = [] then .ok (packAtom mdatT mdatData)
    else do
      let dec ← mdatLoop ks key st.trunSampleSizes mdatData st.currentSampleInfo 0 0
      return packAtom mdatT dec

/-- Child loop of `processMoof` (only `traf` children are transformed;
the discarded `error` of `processTraf` is always nil in the source, but
a panic propagates). -/
def moofLoop (keyMap : List (List Char × List Nat)) :
    DecState → List mp4Atom → GoRes (DecState × List Nat)
  | st, [] => .ok (st, [])
  | st, a :: rest =>
    if a.atomType = trafT then do
      let (st', bytes) ← processTraf keyMap st a
      let (st'', tail) ← moofLoop keyMap st' rest
      return (st'', bytes ++ tail)
    else do
      let (st', tail) ← moofLoop keyMap st rest
      return (st', packAtom a.atomType a.data ++ tail)

/-- `processMoof` from the source. -/
def processMoof (keyMap : List (List Char × List Nat)) (st : DecState)
    (moofData : List Nat) : GoRes (DecState × List Nat) := do
  let (st', bytes) ← moofLoop keyMap st (parseAtoms moofData)
  return (st', packAtom moofT bytes)

/-- `processAtom` from the source. -/
def processAtom (ks : List Nat → List Nat → Nat → Nat)
    (keyMap : List (List Char × List Nat)) (st : DecState) (a : mp4Atom) :
    GoRes (DecState × List Nat) :=
  if a.atomType = moovT then .ok (st, processMoov a.data)
  else if a.atomType = moofT then processMoof keyMap st a.data
  else if a.atomType = sidxT then .ok (st, processSidx st.encryptionOverhead a.data)
  else if a.atomType = mdatT then do
    let bytes ← decryptMdat ks st a.data
    return (st, bytes)
  else .ok (st, packAtom a.atomType a.data)

/-- The fixed processing order of `DecryptSegment`. -/
def processOrderT : List (List Nat) := [moovT, moofT, sidxT, mdatT]

/-- The memoizing pass of `DecryptSegment`: for each type in the fixed
order, process the first atom of that type (if any) and record the
result keyed by type. -/
def processPass (ks : List Nat → List Nat → Nat → Nat)
    (keyMap : List (List Char × List Nat)) :
    DecState → List (List Nat) → List mp4Atom →
      GoRes (DecState × List (List Nat × List Nat))
  | st, [], _ => .ok (st, [])
  | st, t :: ts, atoms =>
    match atoms.find? (fun a => a.atomType = t) with
    | none => processPass ks keyMap st ts atoms
    | some a => do
      let (st', bytes) ← processAtom ks keyMap st a
      let (st'', rest) ← processPass ks keyMap st' ts atoms
      return (st'', (t, bytes) :: rest)

/-- `DecryptSegment` from the source: parse the top level, process
`moov`/`moof`/`sidx`/`mdat` (memoized per type), then rebuild in the
original atom order, substituting the processed bytes for *every* atom
whose type was processed. -/
def DecryptSegment (ks : List Nat → List Nat → Nat → Nat)
    (keyMap : List (List Char × List Nat)) (combined : List Nat) :
    GoRes (List Nat) := do
  let atoms := parseAtoms combined
  let (_, processed) ← processPass ks keyMap initState processOrderT atoms
  return (atoms.map (fun a =>
    match processed.find? (fun p => p.1 = a.atomType) with
    | some p => p.2
    | none => packAtom a.atomType a.data)).flatten

/-! ## Go string helpers over `List Char` -/

/-- `strings.Split(s, sep)` for a single-character separator. -/
def splitOnChar (sep : Char) : List Char → List (List Char)
  | [] => [[]]
  | c :: cs =>
    match splitOnChar sep cs with
    | [] => if c = sep then [[], []] else [[c]]
    | h :: t => if c = sep then [] :: h :: t else (c :: h) :: t

/-- ASCII subset of `unicode.IsSpace` (the only whitespace the proxied
manifests and key strings contain). -/
def isSpaceGo (c : Char) : Bool :=
  c = ' ' ∨ c = '\t' ∨ c = '\n' ∨ c = '\x0b' ∨ c = '\x0c' ∨ c = '\r'

/-- `strings.TrimSpace`. -/
def trimSpace (s : List Char) : List Char :=
  ((s.dropWhile isSpaceGo).reverse.dropWhile isSpaceGo).reverse

/-- Value of one hex digit. -/
def hexDigitVal (c : Char) : Option Nat :=
  if '0' ≤ c ∧ c ≤ '9' then some (c.toNat - '0'.toNat)
  else if 'a' ≤ c ∧ c ≤ 'f' then some (c.toNat - 'a'.toNat + 10)
  else if 'A' ≤ c ∧ c ≤ 'F' then some (c.toNat - 'A'.toNat + 10)
  else none

/-- One `fmt.Sscanf(s, "%02x")` read: at least one hex digit is
required; a non-hex second character stops the scan after one digit. -/
def hexPairVal (c0 c1 : Char) : Option Nat :=
  match hexDigitVal c0 with
  | none => none
  | some v0 =>
    match hexDigitVal c1 with
    | some v1 => some (16 * v0 + v1)
    | none => some v0

/-- `hexToBytes` from the source: an odd-length string or a pair that
does not scan as hex is an error (`none`). -/
def hexToBytes : List Char → Option (List Nat)
  | [] => some []
  | [_] => none
  | c0 :: c1 :: rest =>
    match hexPairVal c0 c1, hexToBytes rest with
    | some v, some vs => some (v :: vs)
    | _, _ => none

/-- Go map assignment `m[k] = v` on an association list (first
occurrence updated in place, otherwise appended). -/
def mapSet {α : Type} (m : List (List Char × α)) (key : List Char) (val : α) :
    List (List Char × α) :=
  if m.any (fun p => p.1 = key) then
    m.map (fun p => if p.1 = key then (key, val) else p)
  else m ++ [(key, val)]

/-- Key-map construction loop of `DecryptSegmentWithKeys`. -/
def buildKeyMap : List (List Char × List Char) → List (List Char × List Nat) →
    GoRes (List (List Char × List Nat))
  | [], acc => .ok acc
  | (kid, k) :: rest, acc =>
    match hexToBytes (trimSpace k) with
    | none => .err "invalid key hex"
    | some kb => buildKeyMap rest (mapSet acc (trimSpace kid) kb)

/-- `DecryptSegmentWithKeys` from the source: split the comma-separated
`keyID` and `key`, reject mismatched counts, build the key map, and run
the decrypter on `initSegment ++ mediaSegment`. -/
def DecryptSegmentWithKeys (ks : List Nat → List Nat → Nat → Nat)
    (initSeg mediaSeg : List Nat) (keyID key : List Char) : GoRes (List Nat) :=
  let kids := splitOnChar ',' keyID
  let keys := splitOnChar ',' key
  if kids.length ≠ keys.length then .err "mismatched key_id/key count"
  else do
    let keyMap ← buildKeyMap (kids.zip keys) []
    DecryptSegment ks keyMap (initSeg ++ mediaSeg)

/-! ## The decrypt endpoint's decision logic
(`pkg/handlers/api`, `handleDecryptSegment`) -/

/-- Outcome of `handleDecryptSegment` up to the external remux step:
either an HTTP error status was written (400 for a missing `url`,
502 for a failed media fetch), or the pre-remux byte string `combined`
was produced and the handler proceeds to remux and answer 200 (with a
`video/mp4` 200 fallback if the remuxer emits nothing) — never 500;
or a panic escaped. -/
inductive EndpointOutcome where
  | httpError : Nat → EndpointOutcome
  | output : List Nat → EndpointOutcome
  | panicked : EndpointOutcome
  deriving DecidableEq

/-- The all-zero sentinel key id (32 `'0'` characters). -/
def zeroKeyID : List Char := List.replicate 32 '0'

/-- `handleDecryptSegment` from the source, with the two upstream
fetches abstracted as their result (`none` = media fetch failed; the
init fetch alone failing is non-fatal in the source and is represented
by an empty init byte string). -/
def handleDecryptSegment (ks : List Nat → List Nat → Nat → Nat)
    (urlParam : List Char) (keyID key : List Char) (skipDecryptParam : List Char)
    (fetched : Option (List Nat × List Nat)) : EndpointOutcome :=
  if urlParam = [] then .httpError 400
  else
    match fetched with
    | none => .httpError 502
    | some (initContent, segmentContent) =>
      let skipDecrypt := skipDecryptParam = ['1']
      if skipDecrypt ∨ keyID = zeroKeyID then .output (initContent ++ segmentContent)
      else if keyID ≠ [] ∧ key ≠ [] then
        match DecryptSegmentWithKeys ks initContent segmentContent keyID key with
        | .ok decrypted => .output decrypted
        | .err _ => .output (initContent ++ segmentContent)
        | .panicked => .panicked
      else .output (initContent ++ segmentContent)

/-! ## Structural facts about the parser, for claim C1 -/

/-- Every parsed atom has a 4-byte type, a payload at least 8 bytes
shorter than the buffer, and payload bytes drawn from the buffer. -/
theorem parseAtomsGo_wf (fuel : Nat) :
    ∀ (d : List Nat), ∀ a ∈ parseAtomsGo fuel d,
      a.atomType.length = 4 ∧ a.data.length + 8 ≤ d.length ∧
        ∀ b ∈ a.data, b ∈ d := by
  induction fuel with
  | zero => intro d a ha; simp [parseAtomsGo] at ha
  | succ fuel ih =>
    intro d a ha
    simp only [parseAtomsGo] at ha
    by_cases h8 : 8 ≤ d.length
    · rw [if_pos h8] at ha
      by_cases hw : be32 d 0 = 1 ∧ 16 ≤ d.length
      · rw [if_pos hw] at ha
        by_cases hsz : be64 d 8 < 8 ∨ d.length < be64 d 8
        · rw [if_pos hsz] at ha; simp at ha
        · rw [if_neg hsz] at ha
          push_neg at hsz
          rcases List.mem_cons.mp ha with rfl | htail
          · refine ⟨?_, ?_, ?_⟩
            · simp; omega
            · simp; omega
            · intro b hb
              exact List.mem_of_mem_drop (List.mem_of_mem_take hb)
          · have := ih _ a htail
            refine ⟨this.1, ?_, ?_⟩
            · have h2 := this.2.1
              simp only [List.length_drop] at h2
              omega
            · intro b hb
              exact List.mem_of_mem_drop (this.2.2 b hb)
      · rw [if_neg hw] at ha
        by_cases hsz : be32 d 0 < 8 ∨ d.length < be32 d 0
        · rw [if_pos hsz] at ha; simp at ha
        · rw [if_neg hsz] at ha
          push_neg at hsz
          rcases List.mem_cons.mp ha with rfl | htail
          · refine ⟨?_, ?_, ?_⟩
            · simp; omega
            · simp; omega
            · intro b hb
              exact List.mem_of_mem_drop (List.mem_of_mem_take hb)
          · have := ih _ a htail
            refine ⟨this.1, ?_, ?_⟩
            · have h2 := this.2.1
              simp only [List.length_drop] at h2
              omega
            · intro b hb
              exact List.mem_of_mem_drop (this.2.2 b hb)
    · rw [if_neg h8] at ha; simp at ha

theorem parseAtoms_wf (d : List Nat) :
    ∀ a ∈ parseAtoms d, a.atomType.length = 4 ∧ a.data.length + 8 ≤ d.length ∧
      ∀ b ∈ a.data, b ∈ d :=
  parseAtomsGo_wf (d.length + 1) d

/-- `modifyTrun` never changes the payload length. -/
theorem modifyTrunData_length (ov : Nat) (d : List Nat) :
    (modifyTrunData ov d).length = d.length := by
  unfold modifyTrunData
  by_cases h : (be32 d 0 &&& 0xFFFFFF) &&& 0x1 ≠ 0 ∧ 12 ≤ d.length
  · rw [if_pos h]
    simp only [putU32, List.length_append, List.length_take, List.length_drop,
      be32enc_length]
    omega
  · rw [if_neg h]

/-- Parsed form of one emitted `traf` child (what `trafEmit` contributes
once the rebuilt payload is re-parsed). -/
def trafEmitAtom (ov : Nat) (a : mp4Atom) : Option mp4Atom :=
  if a.atomType = sencT ∨ a.atomType = saizT ∨ a.atomType = saioT then none
  else if a.atomType = trunT then
    some { atomType := trunT, size := (modifyTrunData ov a.data).length + 8,
           data := modifyTrunData ov a.data }
  else some { atomType := a.atomType, size := a.data.length + 8, data := a.data }

/-- Re-parsing the concatenation of the emitted `traf` children gives
exactly the children with `senc`/`saiz`/`saio` removed and `trun`
payloads rewritten. -/
theorem parseAtoms_trafEmit_flatten (ov : Nat) (atoms : List mp4Atom)
    (h : ∀ a ∈ atoms, a.atomType.length = 4 ∧ a.data.length + 8 < 2 ^ 32) :
    parseAtoms ((atoms.map (trafEmit ov)).flatten) =
      atoms.filterMap (trafEmitAtom ov) := by
  induction atoms with
  | nil => rfl
  | cons a rest ih =>
    have ha := h a (List.mem_cons_self a rest)
    have hrest : ∀ b ∈ rest, b.atomType.length = 4 ∧ b.data.length + 8 < 2 ^ 32 :=
      fun b hb => h b (List.mem_cons_of_mem a hb)
    simp only [List.map_cons, List.flatten_cons, List.filterMap_cons]
    by_cases hskip : a.atomType = sencT ∨ a.atomType = saizT ∨ a.atomType = saioT
    · have h1 : trafEmit ov a = [] := by unfold trafEmit; rw [if_pos hskip]
      have h2 : trafEmitAtom ov a = none := by unfold trafEmitAtom; rw [if_pos hskip]
      rw [h1, h2]
      simpa using ih hrest
    · by_cases htrun : a.atomType = trunT
      · have h1 : trafEmit ov a = packAtom trunT (modifyTrunData ov a.data) := by
          unfold trafEmit modifyTrun; rw [if_neg hskip, if_pos htrun]
        have h2 : trafEmitAtom ov a =
            some { atomType := trunT, size := (modifyTrunData ov a.data).length + 8,
                   data := modifyTrunData ov a.data } := by
          unfold trafEmitAtom; rw [if_neg hskip, if_pos htrun]
        rw [h1, h2]
        show parseAtoms _ = _ :: List.filterMap _ rest
        rw [parseAtoms_packAtom_append _ _ _ (by rfl)
          (by rw [modifyTrunData_length]; exact ha.2)]
        rw [ih hrest]
      · have h1 : trafEmit ov a = packAtom a.atomType a.data := by
          unfold trafEmit; rw [if_neg hskip, if_neg htrun]
        have h2 : trafEmitAtom ov a =
            some { atomType := a.atomType, size := a.data.length + 8,
                   data := a.data } := by
          unfold trafEmitAtom; rw [if_neg hskip, if_neg htrun]
        rw [h1, h2]
        show parseAtoms _ = _ :: List.filterMap _ rest
        rw [parseAtoms_packAtom_append _ _ _ ha.1 ha.2]
        rw [ih hrest]

/-- `trafLoop` never touches `encryptionOverhead` (its only state
mutation is `processTrun` writing `trunSampleSizes`). -/
theorem trafLoop_overhead (ov : Nat) (st : DecState) (atoms : List mp4Atom)
    (tfhd : Option mp4Atom) (c : Nat) (info : List sampleAuxInfo) :
    (trafLoop ov st atoms tfhd c info).1.encryptionOverhead =
      st.encryptionOverhead := by
  induction atoms generalizing st tfhd c info with
  | nil => rfl
  | cons a rest ih =>
    unfold trafLoop
    by_cases h1 : a.atomType = tfhdT
    · rw [if_pos h1]; exact ih ..
    · rw [if_neg h1]
      by_cases h2 : a.atomType = trunT
      · rw [if_pos h2]
        have hpt : ((processTrun st a.data).1).encryptionOverhead =
            st.encryptionOverhead := by
          unfold processTrun
          by_cases h : a.data.length < 8
          · rw [if_pos h]
          · rw [if_neg h]
        rw [← hpt]
        exact ih ..
      · rw [if_neg h2]
        by_cases h3 : a.atomType = sencT
        · rw [if_pos h3]; exact ih ..
        · rw [if_neg h3]; exact ih ..

/-- Shape of a successful `processTraf`: the output is the repacked
`traf` whose payload is the concatenation of the emitted children, and
the returned state records the encryption overhead of this `traf`. -/
theorem processTraf_ok (keyMap : List (List Char × List Nat)) (st : DecState)
    (traf : mp4Atom) (st' : DecState) (out : List Nat)
    (h : processTraf keyMap st traf = .ok (st', out)) :
    out = packAtom trafT
        (((parseAtoms traf.data).map
          (trafEmit (encOverhead (parseAtoms traf.data)))).flatten) ∧
      st'.encryptionOverhead = encOverhead (parseAtoms traf.data) := by
  unfold processTraf at h
  simp only [] at h
  rcases htl : trafLoop (encOverhead (parseAtoms traf.data))
      { st with encryptionOverhead := encOverhead (parseAtoms traf.data) }
      (parseAtoms traf.data) none 0 [] with ⟨st1, tfhd, info⟩
  have hov : st1.encryptionOverhead = encOverhead (parseAtoms traf.data) := by
    have := trafLoop_overhead (encOverhead (parseAtoms traf.data))
      { st with encryptionOverhead := encOverhead (parseAtoms traf.data) }
      (parseAtoms traf.data) none 0 []
    rw [htl] at this
    exact this
  rw [htl] at h
  rcases tfhd with _ | t
  · simp only [bind, pure] at h
    cases h
    exact ⟨rfl, hov⟩
  · simp only at h
    by_cases hlen : 8 ≤ t.data.length
    · rw [if_pos hlen] at h
      rcases hgk : getKeyForTrack keyMap (be32 t.data 4) with key | e | _ <;>
        rw [hgk] at h <;>
        simp only [bind, pure] at h <;> try cases h
      exact ⟨rfl, hov⟩
    · rw [if_neg hlen] at h
      simp only [pure] at h
      cases h
      exact ⟨rfl, hov⟩

theorem be32_append_offset (A B : List Nat) (off : Nat) (h : A.length = off) :
    be32 (A ++ B) off = be32 B 0 := by
  unfold be32
  rw [byteAt_append_right _ _ _ (by omega), byteAt_append_right _ _ _ (by omega),
    byteAt_append_right _ _ _ (by omega), byteAt_append_right _ _ _ (by omega), h]
  norm_num

theorem mul_pow_lor_eq_add (a b : Nat) (hb : b < 2 ^ 31) :
    a * 2 ^ 31 ||| b = a * 2 ^ 31 + b := by
  calc a * 2 ^ 31 ||| b = 2 ^ 31 * a ||| b := by rw [Nat.mul_comm]
    _ = 2 ^ 31 * a + b := (Nat.mul_add_lt_is_or hb a).symm
    _ = a * 2 ^ 31 + b := by ring

theorem be32_putU32 (l : List Nat) (off n : Nat) (hoff : off ≤ l.length) :
    be32 (putU32 l off n) off = n % 2 ^ 32 := by
  unfold putU32
  have h1 : (l.take off).length = off := by
    rw [List.length_take]; omega
  rw [show l.take off ++ be32enc n ++ l.drop (off + 4) =
    l.take off ++ (be32enc n ++ l.drop (off + 4)) by simp]
  rw [be32_append_offset _ _ _ h1, be32_be32enc_append]

/-- C1: for every `traf` box that the CENC decrypter processes
successfully, the `senc`, `saiz` and `saio` children are removed from
the rebuilt output; the recorded encryption overhead is their total
byte size; every `trun` child with the data-offset flag (0x000001) has
its `data_offset` decremented by that total; and for a `sidx` payload
processed with the resulting state, the low 31 bits of the 32-bit word
at payload offset 32 are decremented by the same total while the top
(reference_type) bit is preserved. -/
theorem c1_traf_strips_and_sidx_adjusts
    (keyMap : List (List Char × List Nat)) (st : DecState) (traf sidx : mp4Atom)
    (st' : DecState) (out : List Nat)
    (hrun : processTraf keyMap st traf = .ok (st', out))
    (hbytes : ∀ b ∈ traf.data, b < 256)
    (hsbytes : ∀ b ∈ sidx.data, b < 256)
    (hlen : traf.data.length + 8 < 2 ^ 32) :
    st'.encryptionOverhead = encOverhead (parseAtoms traf.data) ∧
    (∃ newData, out = packAtom trafT newData ∧
      parseAtoms newData =
        (parseAtoms traf.data).filterMap
          (trafEmitAtom (encOverhead (parseAtoms traf.data))) ∧
      ∀ a ∈ parseAtoms newData,
        a.atomType ≠ sencT ∧ a.atomType ≠ saizT ∧ a.atomType ≠ saioT) ∧
    (∀ a ∈ parseAtoms traf.data, a.atomType = trunT →
      (be32 a.data 0 &&& 0xFFFFFF) &&& 0x1 ≠ 0 → 12 ≤ a.data.length →
      encOverhead (parseAtoms traf.data) ≤ be32 a.data 8 →
      be32 (modifyTrunData (encOverhead (parseAtoms traf.data)) a.data) 8 =
        be32 a.data 8 - encOverhead (parseAtoms traf.data)) ∧
    (36 ≤ sidx.data.length →
      encOverhead (parseAtoms traf.data) ≤ be32 sidx.data 32 % 2 ^ 31 →
      ∃ p, processSidx st'.encryptionOverhead sidx.data = packAtom sidxT p ∧
        be32 p 32 / 2 ^ 31 = be32 sidx.data 32 / 2 ^ 31 ∧
        be32 p 32 % 2 ^ 31 =
          be32 sidx.data 32 % 2 ^ 31 - encOverhead (parseAtoms traf.data)) := by
  obtain ⟨hout, hov⟩ := processTraf_ok keyMap st traf st' out hrun
  set ov := encOverhead (parseAtoms traf.data) with hovdef
  have hwf4 : ∀ a ∈ parseAtoms traf.data,
      a.atomType.length = 4 ∧ a.data.length + 8 < 2 ^ 32 := by
    intro a ha
    obtain ⟨h1, h2, _⟩ := parseAtoms_wf traf.data a ha
    exact ⟨h1, by omega⟩
  refine ⟨hov, ⟨_, hout, parseAtoms_trafEmit_flatten ov _ hwf4, ?_⟩, ?_, ?_⟩
  · rw [parseAtoms_trafEmit_flatten ov _ hwf4]
    intro a ha
    obtain ⟨b, hb, hfb⟩ := List.mem_filterMap.mp ha
    unfold trafEmitAtom at hfb
    by_cases hskip : b.atomType = sencT ∨ b.atomType = saizT ∨ b.atomType = saioT
    · rw [if_pos hskip] at hfb; cases hfb
    · rw [if_neg hskip] at hfb
      by_cases htrun : b.atomType = trunT
      · rw [if_pos htrun] at hfb
        cases hfb
        exact ⟨by show trunT ≠ sencT; decide, by show trunT ≠ saizT; decide,
          by show trunT ≠ saioT; decide⟩
      · rw [if_neg htrun] at hfb
        cases hfb
        push_neg at hskip
        exact ⟨hskip.1, hskip.2.1, hskip.2.2⟩
  · intro a ha hat hflag h12 hle
    have hcur : be32 a.data 8 < 2 ^ 32 := by
      apply be32_lt
      intro b hb
      exact hbytes b ((parseAtoms_wf traf.data a ha).2.2 b hb)
    unfold modifyTrunData
    rw [if_pos ⟨hflag, h12⟩, be32_putU32 _ _ _ (by omega)]
    omega
  · intro h36 hle
    have hw : be32 sidx.data 32 < 2 ^ 32 := be32_lt _ hsbytes 32
    rw [hov]
    unfold processSidx
    rw [if_neg (by omega)]
    refine ⟨_, rfl, ?_, ?_⟩ <;>
    · rw [be32_putU32 _ _ _ (by omega), mul_pow_lor_eq_add _ _ (by omega)]
      omega

/-- Concrete `traf` for the C1 witness: a `tfhd` (track 1), a `trun`
with the data-offset flag and `data_offset = 100`, and `senc`, `saiz`,
`saio` children totalling 32 bytes. -/
def c1Traf : mp4Atom :=
  { atomType := trafT, size := 0,
    data := packAtom tfhdT [0, 0, 0, 0, 0, 0, 0, 1] ++
      packAtom trunT [0, 0, 0, 1, 0, 0, 0, 1, 0, 0, 0, 100] ++
      packAtom sencT [0, 0, 0, 0, 0, 0, 0, 0] ++
      packAtom saizT [] ++ packAtom saioT [] }

/-- Concrete `sidx` payload for the C1 witness: first reference word at
offset 32 is `0x80000064` (`reference_type = 1`, size 100). -/
def c1Sidx : mp4Atom :=
  { atomType := sidxT, size := 0,
    data := List.replicate 32 0 ++ [128, 0, 0, 100] }

def c1KeyMap : List (List Char × List Nat) := [(['k'], List.replicate 16 0)]

/-- The state and output of `processTraf` on the C1 witness input. -/
def c1StRes : DecState :=
  { currentKey := some (List.replicate 16 0)
    trunSampleSizes := [0]
    currentSampleInfo := []
    encryptionOverhead := 32 }

def c1OutRes : List Nat :=
  packAtom trafT (packAtom tfhdT [0, 0, 0, 0, 0, 0, 0, 1] ++
    packAtom trunT [0, 0, 0, 1, 0, 0, 0, 1, 0, 0, 0, 68])

theorem c1_traf_strips_and_sidx_adjusts_witness :
      processTraf c1KeyMap initState c1Traf = GoRes.ok (c1StRes, c1OutRes) ∧
      (c1StRes.encryptionOverhead = encOverhead (parseAtoms c1Traf.data) ∧
      (∃ newData, c1OutRes = packAtom trafT newData ∧
        parseAtoms newData =
          (parseAtoms c1Traf.data).filterMap
            (trafEmitAtom (encOverhead (parseAtoms c1Traf.data))) ∧
        ∀ a ∈ parseAtoms newData,
          a.atomType ≠ sencT ∧ a.atomType ≠ saizT ∧ a.atomType ≠ saioT) ∧
      (∀ a ∈ parseAtoms c1Traf.data, a.atomType = trunT →
        (be32 a.data 0 &&& 0xFFFFFF) &&& 0x1 ≠ 0 → 12 ≤ a.data.length →
        encOverhead (parseAtoms c1Traf.data) ≤ be32 a.data 8 →
        be32 (modifyTrunData (encOverhead (parseAtoms c1Traf.data)) a.data) 8 =
          be32 a.data 8 - encOverhead (parseAtoms c1Traf.data)) ∧
      (36 ≤ c1Sidx.data.length →
        encOverhead (parseAtoms c1Traf.data) ≤ be32 c1Sidx.data 32 % 2 ^ 31 →
        ∃ p, processSidx c1StRes.encryptionOverhead c1Sidx.data = packAtom sidxT p ∧
          be32 p 32 / 2 ^ 31 = be32 c1Sidx.data 32 / 2 ^ 31 ∧
          be32 p 32 % 2 ^ 31 =
            be32 c1Sidx.data 32 % 2 ^ 31 -
              encOverhead (parseAtoms c1Traf.data))) := by
  have hEq : processTraf c1KeyMap initState c1Traf =
      GoRes.ok (c1StRes, c1OutRes) := by decide
  exact ⟨hEq, c1_traf_strips_and_sidx_adjusts c1KeyMap initState c1Traf c1Sidx
    c1StRes c1OutRes hEq (by decide) (by decide) (by decide)⟩

/-- C4: the key chosen for a track with a multi-key map is
`keys[(trackID-1) % N]` over a slice populated by *ranging over a Go
map*, whose iteration order is randomized per run.  Two enumeration
orders of the same two-entry key map select different keys for track 1,
so the selection is not a function of the (track id, key map) pair and
two runs of the decrypter need not pick the same key. -/
theorem c4_key_selection_depends_on_map_order :
    getKeyForTrack [(['a'], List.replicate 16 0), (['b'], List.replicate 16 1)] 1 =
      GoRes.ok (some (List.replicate 16 0)) ∧
    getKeyForTrack [(['b'], List.replicate 16 1), (['a'], List.replicate 16 0)] 1 =
      GoRes.ok (some (List.replicate 16 1)) ∧
    [(['a'], List.replicate 16 0), (['b'], List.replicate 16 1)].Perm
      [(['b'], List.replicate 16 1), (['a'], List.replicate 16 0)] ∧
    (List.replicate 16 0 : List Nat) ≠ List.replicate 16 1 := by
  refine ⟨by decide, by decide, List.Perm.swap _ _ _, by decide⟩

/-! ## Claim C10: totality of `DecryptSegment` -/

/-- The Go `parseAtoms` loop with its slice-bounds panic made explicit:
when the 32-bit size field is 1 and 16 bytes remain, the size is re-read
as 64 bits; a 64-bit size in `[8, 15]` passes the `size < 8`/overrun
guard, and the payload slice `data[pos+16 : pos+size]` then has its
lower bound above its upper bound and panics. -/
def parseAtomsGoR : Nat → List Nat → GoRes (List mp4Atom)
  | 0, _ => .ok []
  | fuel + 1, data =>
    if 8 ≤ data.length then
      if be32 data 0 = 1 ∧ 16 ≤ data.length then
        if be64 data 8 < 8 ∨ data.length < be64 data 8 then .ok []
        else if be64 data 8 < 16 then .panicked
        else
          match parseAtomsGoR fuel (data.drop (be64 data 8)) with
          | .ok rest =>
            .ok ({ atomType := (data.drop 4).take 4
                   size := be64 data 8
                   data := (data.drop 16).take (be64 data 8 - 16) } :: rest)
          | .err e => .err e
          | .panicked => .panicked
      else
        if be32 data 0 < 8 ∨ data.length < be32 data 0 then .ok []
        else
          match parseAtomsGoR fuel (data.drop (be32 data 0)) with
          | .ok rest =>
            .ok ({ atomType := (data.drop 4).take 4
                   size := be32 data 0
                   data := (data.drop 8).take (be32 data 0 - 8) } :: rest)
          | .err e => .err e
          | .panicked => .panicked
    else .ok []

def parseAtomsR (data : List Nat) : GoRes (List mp4Atom) :=
  parseAtomsGoR (data.length + 1) data

/-- Wherever the panic does not fire, the total parser used by the rest
of the development computes exactly the Go parse. -/
theorem parseAtomsGoR_ok (fuel : Nat) :
    ∀ (data : List Nat) (atoms : List mp4Atom),
      parseAtomsGoR fuel data = .ok atoms → parseAtomsGo fuel data = atoms := by
  induction fuel with
  | zero =>
    intro data atoms h
    simp only [parseAtomsGoR] at h
    cases h
    rfl
  | succ f ih =>
    intro data atoms h
    unfold parseAtomsGoR at h
    unfold parseAtomsGo
    by_cases h8 : 8 ≤ data.length
    · rw [if_pos h8] at h ⊢
      by_cases hw : be32 data 0 = 1 ∧ 16 ≤ data.length
      · rw [if_pos hw] at h ⊢
        by_cases hsz : be64 data 8 < 8 ∨ data.length < be64 data 8
        · rw [if_pos hsz] at h ⊢
          cases h
          rfl
        · rw [if_neg hsz] at h ⊢
          by_cases h16 : be64 data 8 < 16
          · rw [if_pos h16] at h
            cases h
          · rw [if_neg h16] at h
            split at h
            next rest hr =>
              cases h
              rw [ih _ rest hr]
            next e hr => cases h
            next hr => cases h
      · rw [if_neg hw] at h ⊢
        by_cases hsz : be32 data 0 < 8 ∨ data.length < be32 data 0
        · rw [if_pos hsz] at h ⊢
          cases h
          rfl
        · rw [if_neg hsz] at h ⊢
          split at h
          next rest hr =>
            cases h
            rw [ih _ rest hr]
          next e hr => cases h
          next hr => cases h
    · rw [if_neg h8] at h ⊢
      cases h
      rfl

/-- C10: the claim promises a result without error for *every* input
byte string once all keys are 16 bytes; the program refutes it twice.
With a two-key map and a `moof/traf/tfhd` carrying track id 0 the Go
expression `keys[(trackID-1) % len(keys)]` indexes at `-1` and
`DecryptSegment` panics instead of returning; and — independently of the
key map — the atom parser itself panics on the 16-byte input whose
32-bit size field is 1 (the 64-bit marker) and whose 64-bit size is 10:
that size passes the `size < 8`/overrun guard and the payload slice
`data[pos+16 : pos+size]` has its lower bound above its upper bound
(`parseAtomsR` is the parser loop with Go slice-bounds semantics, and
`DecryptSegment` parses its input with this loop first). -/
theorem c10_counterexample :
    (∀ kv ∈ [(['a'], List.replicate 16 (0 : Nat)),
        (['b'], List.replicate 16 (1 : Nat))], kv.2.length = 16) ∧
    DecryptSegment (fun _ _ _ => 0)
      [(['a'], List.replicate 16 0), (['b'], List.replicate 16 1)]
      (packAtom moofT (packAtom trafT (packAtom tfhdT [0, 0, 0, 0, 0, 0, 0, 0]))) =
      GoRes.panicked ∧
    parseAtomsR
      [0, 0, 0, 1, 102, 114, 101, 101, 0, 0, 0, 0, 0, 0, 0, 10] =
      GoRes.panicked := by
  exact ⟨by decide, by decide, by decide⟩

/-- C8 (counterexample): a decrypt request whose `key_id` and `key` are
both non-empty but have mismatched comma-separated counts does *not*
produce a 500: `DecryptSegmentWithKeys` returns the mismatched-count
error, the handler logs it and falls back to the unchanged concatenation
`init ++ media`, and proceeds to the remux/200 path. -/
theorem c8_counterexample :
    DecryptSegmentWithKeys (fun _ _ _ => 0) [7] [9] ['a', ',', 'b'] ['c'] =
      .err "mismatched key_id/key count" ∧
    handleDecryptSegment (fun _ _ _ => 0) ['u'] ['a', ',', 'b'] ['c'] []
      (some ([7], [9])) = .output [7, 9] ∧
    handleDecryptSegment (fun _ _ _ => 0) ['u'] ['a', ',', 'b'] ['c'] []
      (some ([7], [9])) ≠ .httpError 500 := by
  exact ⟨by decide, by decide, by decide⟩

/-- C8 (amended): a request to the decrypt endpoint whose `key_id` and
`key` are both non-empty but have mismatched comma-separated counts
makes `DecryptSegmentWithKeys` return a mismatched-count error, which
the endpoint swallows: it serves the unchanged concatenation
`init ++ media` through the remux/200 path and never writes a 500 (the
only error statuses of the endpoint are 400 for a missing `url` and 502
for a failed media fetch). -/
theorem c8_mismatched_keys_fall_back (ks : List Nat → List Nat → Nat → Nat)
    (urlParam keyID key skipParam : List Char) (initC segC : List Nat)
    (hurl : urlParam ≠ [])
    (hskip : skipParam ≠ ['1'])
    (hkid : keyID ≠ [] ∧ keyID ≠ zeroKeyID)
    (hkey : key ≠ [])
    (hmis : (splitOnChar ',' keyID).length ≠ (splitOnChar ',' key).length) :
    DecryptSegmentWithKeys ks initC segC keyID key =
      .err "mismatched key_id/key count" ∧
    handleDecryptSegment ks urlParam keyID key skipParam (some (initC, segC)) =
      .output (initC ++ segC) := by
  have hd : DecryptSegmentWithKeys ks initC segC keyID key =
      .err "mismatched key_id/key count" := by
    unfold DecryptSegmentWithKeys
    rw [if_pos hmis]
  refine ⟨hd, ?_⟩
  unfold handleDecryptSegment
  rw [if_neg hurl]
  simp only []
  rw [if_neg (by rintro (h | h); exact hskip h; exact hkid.2 h)]
  rw [if_pos ⟨hkid.1, hkey⟩, hd]

theorem c8_mismatched_keys_fall_back_witness :
    (['u'] : List Char) ≠ [] ∧
    ([] : List Char) ≠ ['1'] ∧
    ((['a', ',', 'b'] : List Char) ≠ [] ∧ (['a', ',', 'b'] : List Char) ≠ zeroKeyID) ∧
    (['c'] : List Char) ≠ [] ∧
    (splitOnChar ',' ['a', ',', 'b']).length ≠ (splitOnChar ',' ['c']).length ∧
    (DecryptSegmentWithKeys (fun _ _ _ => 0) [3] [4] ['a', ',', 'b'] ['c'] =
        .err "mismatched key_id/key count" ∧
      handleDecryptSegment (fun _ _ _ => 0) ['u'] ['a', ',', 'b'] ['c'] []
        (some ([3], [4])) = .output ([3] ++ [4])) :=
  ⟨by decide, by decide, ⟨by decide, by decide⟩, by decide, by decide,
    c8_mismatched_keys_fall_back (fun _ _ _ => 0) ['u'] ['a', ',', 'b'] ['c'] []
      [3] [4] (by decide) (by decide) ⟨by decide, by decide⟩ (by decide) (by decide)⟩

/-! ## DASH SegmentTimeline expansion (`MPDHandler`) -/

/-- `strconv.Itoa` / `strconv.FormatInt(_, 10)`. -/
def intChars (i : Int) : List Char :=
  if i < 0 then '-' :: Nat.toDigits 10 (-i).toNat else Nat.toDigits 10 i.toNat

/-- `strings.ReplaceAll` (non-overlapping, left to right) for a
non-empty pattern, with explicit fuel (one unit per consumed character;
`s.length` always suffices). -/
def replAllGo (pat repl : List Char) : Nat → List Char → List Char
  | 0, s => s
  | fuel + 1, s =>
    if pat ≠ [] ∧ pat.isPrefixOf s then
      repl ++ replAllGo pat repl fuel (s.drop pat.length)
    else
      match s with
      | [] => []
      | c :: cs => c :: replAllGo pat repl fuel cs

def replaceAll (s pat repl : List Char) : List Char :=
  replAllGo pat repl s.length s

/-- `replaceTemplateVars` from the source: substitute
`$RepresentationID$`, `$Bandwidth$`, `$Number$` and `$Time$`, in that
order. -/
def replaceTemplateVars (template repID bandwidth : List Char)
    (number : Int) (time : Int) : List Char :=
  let r1 := replaceAll template "$RepresentationID$".data repID
  let r2 := replaceAll r1 "$Bandwidth$".data bandwidth
  let r3 := replaceAll r2 "$Number$".data (intChars number)
  replaceAll r3 "$Time$".data (intChars time)

/-- One `<S t? d r?>` element of a `SegmentTimeline` (the source stores
the attributes as strings and parses them inside the loop with errors
ignored; `none` models an absent attribute, whose parse the source
skips (`t`) or defaults to 0 (`r`)). -/
structure SegmentTimelineS where
  t : Option Int
  d : Int
  r : Option Int
  deriving DecidableEq

/-- The fields of `SegmentTemplate` used by the timeline expansion. -/
structure SegmentTemplate where
  media : List Char
  segmentTimeline : Option (List SegmentTimelineS)

/-- One emitted segment (`segment` struct from the source); the
`float64` duration is modelled as the exact rational `d / timescale`. -/
structure segment where
  url : List Char
  duration : ℚ
  durationTS : Int
  time : Int
  number : Int
  deriving DecidableEq

/-- The inner `for i := 0; i <= r; i++` loop: emit `count` segments,
advancing the current time by `d` and the number by 1 after each, and
return the final clock and number. -/
def emitRepeat (media repID bw : List Char) (d timescale : Int) :
    Nat → Int → Int → List segment × Int × Int
  | 0, time, num => ([], time, num)
  | n + 1, time, num =>
    let (rest, t', n') := emitRepeat media repID bw d timescale n (time + d) (num + 1)
    ({ url := replaceTemplateVars media repID bw num time
       duration := Rat.divInt d timescale
       durationTS := d, time := time, number := num } :: rest, t', n')

/-- The outer entry loop of `buildSegmentsFromTimeline`. -/
def timelineLoop (media repID bw : List Char) (timescale : Int) :
    List SegmentTimelineS → Int → Int → List segment
  | [], _, _ => []
  | s :: rest, currentTime, num =>
    let ct := match s.t with | some t => t | none => currentTime
    let (segs, ct', num') := emitRepeat media repID bw s.d timescale
      ((s.r.getD 0 + 1).toNat) ct num
    segs ++ timelineLoop media repID bw timescale rest ct' num'

/-- `buildSegmentsFromTimeline` from the source. -/
def buildSegmentsFromTimeline (st : SegmentTemplate) (repID bw : List Char)
    (timescale startNumber : Int) : List segment :=
  match st.segmentTimeline with
  | none => []
  | some entries => timelineLoop st.media repID bw timescale entries 0 startNumber

/-- The expansion as the specification words it (claim C3): walk the
entries in order with a current-time clock starting at 0 that is reset
to `t` when the entry carries one; the entry with duration `d` and
repeat count `r` contributes `r+1` segments, the `i`-th having the
template substituted at number `first+i` and time `clock + d*i`,
duration `d/timescale`; the clock advances by `d` per segment and the
number increments by 1 per segment, starting at `startNumber`. -/
def specEntrySegments (media repID bw : List Char) (timescale : Int)
    (e : SegmentTimelineS) (clock firstNumber : Int) : List segment :=
  (List.range (e.r.getD 0 + 1).toNat).map fun (i : Nat) =>
    { url := replaceTemplateVars media repID bw (firstNumber + (i : Int))
        (clock + e.d * (i : Int))
      duration := Rat.divInt e.d timescale
      durationTS := e.d
      time := clock + e.d * (i : Int)
      number := firstNumber + (i : Int) }

def specTimelineExpand (media repID bw : List Char) (timescale : Int) :
    List SegmentTimelineS → Int → Int → List segment
  | [], _, _ => []
  | e :: rest, clock, num =>
    let c := e.t.getD clock
    specEntrySegments media repID bw timescale e c num ++
      specTimelineExpand media repID bw timescale rest
        (c + e.d * (e.r.getD 0 + 1).toNat) (num + (e.r.getD 0 + 1).toNat)

def specTimeline (st : SegmentTemplate) (repID bw : List Char)
    (timescale startNumber : Int) : List segment :=
  match st.segmentTimeline with
  | none => []
  | some entries => specTimelineExpand st.media repID bw timescale entries 0 startNumber

/-- Closed form of the inner repeat loop. -/
theorem emitRepeat_eq (media repID bw : List Char) (d ts : Int) :
    ∀ (n : Nat) (time num : Int),
      emitRepeat media repID bw d ts n time num =
        ((List.range n).map (fun i =>
          { url := replaceTemplateVars media repID bw (num + i) (time + d * i)
            duration := Rat.divInt d ts
            durationTS := d
            time := time + d * i
            number := num + i }),
         time + d * n, num + n) := by
  intro n
  induction n with
  | zero => intro time num; simp [emitRepeat]
  | succ n ih =>
    intro time num
    rw [emitRepeat, ih (time + d) (num + 1)]
    simp only [List.range_succ_eq_map, List.map_cons, List.map_map]
    refine congrArg₂ _ ?_
      (by simp only [Prod.mk.injEq]; push_cast; constructor <;> ring)
    congr 1
    · congr 1 <;> push_cast <;> ring
    · apply List.map_congr_left
      intro i _
      have h1 : num + 1 + (i : Int) = num + ((i : Nat).succ : Int) := by
        push_cast; ring
      have h2 : time + d + d * (i : Int) = time + d * ((i : Nat).succ : Int) := by
        push_cast; ring
      simp only [Function.comp]
      rw [h1, h2]

theorem timelineLoop_eq_spec (media repID bw : List Char) (ts : Int) :
    ∀ (entries : List SegmentTimelineS) (clock num : Int),
      timelineLoop media repID bw ts entries clock num =
        specTimelineExpand media repID bw ts entries clock num := by
  intro entries
  induction entries with
  | nil => intro clock num; rfl
  | cons e rest ih =>
    intro clock num
    rw [timelineLoop, specTimelineExpand]
    rcases e.t with _ | t <;>
    · simp only [Option.getD]
      rw [emitRepeat_eq]
      simp only []
      rw [ih]
      unfold specEntrySegments
      rfl

theorem specTimelineExpand_length (media repID bw : List Char) (ts : Int) :
    ∀ (entries : List SegmentTimelineS) (clock num : Int),
      (∀ e ∈ entries, 0 ≤ e.r.getD 0) →
      ((specTimelineExpand media repID bw ts entries clock num).length : Int) =
        (entries.map (fun e => e.r.getD 0 + 1)).sum := by
  intro entries
  induction entries with
  | nil => intro clock num _; rfl
  | cons e rest ih =>
    intro clock num hr
    rw [specTimelineExpand]
    simp only [List.length_append, List.map_cons, List.sum_cons, specEntrySegments,
      List.length_map, List.length_range]
    push_cast
    rw [ih _ _ (fun b hb => hr b (List.mem_cons_of_mem e hb))]
    have h0 : 0 ≤ e.r.getD 0 := hr e (List.mem_cons_self ..)
    have : ((e.r.getD 0 + 1).toNat : Int) = e.r.getD 0 + 1 :=
      Int.toNat_of_nonneg (by omega)
    rw [this]

/-- C3: `SegmentTimeline` expansion walks the entries in order with a
current-time clock starting at 0 that is reset to `t` when an entry
carries one; an entry with duration `d` and repeat count `r` yields
exactly `r+1` segments, each with the media template's
`$RepresentationID$`/`$Bandwidth$`/`$Number$`/`$Time$` substituted,
duration `d/timescale` (exact rational model of the `float64`), the
current time, and a number incrementing by 1 per segment from
`startNumber`, the clock advancing by `d` per segment — stated as
equality with `specTimeline`, the expansion written from the
specification's words, plus the `r+1` segment count (for nonnegative
repeat counts). -/
theorem c3_segment_timeline_expansion (st : SegmentTemplate) (repID bw : List Char)
    (timescale startNumber : Int) :
    buildSegmentsFromTimeline st repID bw timescale startNumber =
      specTimeline st repID bw timescale startNumber ∧
    (∀ entries, st.segmentTimeline = some entries →
      (∀ e ∈ entries, 0 ≤ e.r.getD 0) →
      ((buildSegmentsFromTimeline st repID bw timescale startNumber).length : Int) =
        (entries.map (fun e => e.r.getD 0 + 1)).sum) := by
  constructor
  · unfold buildSegmentsFromTimeline specTimeline
    rcases st.segmentTimeline with _ | entries
    · rfl
    · exact timelineLoop_eq_spec st.media repID bw timescale entries 0 startNumber
  · intro entries he hr
    unfold buildSegmentsFromTimeline
    rw [he]
    show ((timelineLoop st.media repID bw timescale entries 0 startNumber).length : Int) = _
    rw [timelineLoop_eq_spec]
    exact specTimelineExpand_length st.media repID bw timescale entries 0
      startNumber hr

def c3Entries : List SegmentTimelineS := [⟨some 10, 4, some 2⟩, ⟨none, 6, none⟩]

def c3St : SegmentTemplate := ⟨"s$Number$_$Time$.m4s".data, some c3Entries⟩

theorem c3_segment_timeline_expansion_witness :
    buildSegmentsFromTimeline c3St "v1".data "2500".data 1 5 =
      specTimeline c3St "v1".data "2500".data 1 5 ∧
    ((buildSegmentsFromTimeline c3St "v1".data "2500".data 1 5).length : Int) =
      (c3Entries.map (fun e => e.r.getD 0 + 1)).sum :=
  ⟨(c3_segment_timeline_expansion c3St "v1".data "2500".data 1 5).1,
   (c3_segment_timeline_expansion c3St "v1".data "2500".data 1 5).2 c3Entries rfl
     (by decide)⟩

/-! ## Live target duration (`convertMediaPlaylist`, claim C5) -/

/-- The `maxDur` fold of `convertMediaPlaylist` (start at 0, keep the
larger duration). -/
def maxSegDurationFold (segs : List segment) : ℚ :=
  segs.foldl (fun m s => if s.duration > m then s.duration else m) 0

/-- `int(maxDur) + 1` from the source; `maxDur ≥ 0` always holds (the
fold starts at 0), so Go's truncation is the floor. -/
def liveTargetDuration (segs : List segment) : Int :=
  ⌊maxSegDurationFold segs⌋ + 1

/-- The `#EXT-X-TARGETDURATION` value emitted by `convertMediaPlaylist`
for a live (dynamic) playlist: only produced when there is at least one
segment and the playlist is live. -/
def mediaPlaylistTargetDuration (isLive : Bool) (segs : List segment) :
    Option Int :=
  if 0 < segs.length ∧ isLive = true then some (liveTargetDuration segs) else none

/-- C5 (counterexample): a dynamic playlist with one segment of
duration 9/2 s (d=9, timescale=2) gets `#EXT-X-TARGETDURATION:5` =
`int(4.5)+1`, not `ceil(4.5)+1 = 6` as the claim states. -/
theorem c5_counterexample :
    mediaPlaylistTargetDuration true
      (buildSegmentsFromTimeline ⟨"s$Number$.m4s".data, some [⟨none, 9, none⟩]⟩
        "v1".data "2000".data 2 1) = some 5 ∧
    (⌈maxSegDurationFold
      (buildSegmentsFromTimeline ⟨"s$Number$.m4s".data, some [⟨none, 9, none⟩]⟩
        "v1".data "2000".data 2 1)⌉ + 1 : Int) = 6 ∧
    mediaPlaylistTargetDuration true
      (buildSegmentsFromTimeline ⟨"s$Number$.m4s".data, some [⟨none, 9, none⟩]⟩
        "v1".data "2000".data 2 1) ≠
      some (⌈maxSegDurationFold
        (buildSegmentsFromTimeline ⟨"s$Number$.m4s".data, some [⟨none, 9, none⟩]⟩
          "v1".data "2000".data 2 1)⌉ + 1) := by
  exact ⟨by decide, by decide, by decide⟩

theorem foldl_max_init_le (l : List ℚ) : ∀ acc : ℚ, acc ≤ l.foldl max acc := by
  induction l with
  | nil => intro acc; exact le_refl _
  | cons b rest ih =>
    intro acc
    exact le_trans (le_max_left acc b) (ih (max acc b))

theorem mem_le_foldl_max (l : List ℚ) :
    ∀ (acc a : ℚ), a ∈ l → a ≤ l.foldl max acc := by
  induction l with
  | nil => intro acc a ha; cases ha
  | cons b rest ih =>
    intro acc a ha
    rcases List.mem_cons.mp ha with rfl | ha
    · exact le_trans (le_max_right acc a) (foldl_max_init_le rest (max acc a))
    · exact ih (max acc b) a ha

theorem maxSegDurationFold_eq (segs : List segment) :
    maxSegDurationFold segs = (segs.map segment.duration).foldl max 0 := by
  unfold maxSegDurationFold
  rw [List.foldl_map]
  congr 1
  funext m x
  rcases le_or_lt x.duration m with h | h
  · rw [if_neg (by exact not_lt_of_le h), max_eq_left h]
  · rw [if_pos h, max_eq_right (le_of_lt h)]

/-- C5 (amended): for every live (dynamic) DASH media playlist with at
least one segment, the emitted `#EXT-X-TARGETDURATION` equals
`⌊max segment duration⌋ + 1` (Go `int()` truncation, not `ceil`); the
value still strictly exceeds every segment duration, and it coincides
with `ceil(max)+1` exactly when the maximum is an integer. -/
theorem c5_live_target_duration (segs : List segment) (h : segs ≠ []) :
    mediaPlaylistTargetDuration true segs =
      some (⌊(segs.map segment.duration).foldl max 0⌋ + 1) ∧
    (∀ s ∈ segs, s.duration < ((liveTargetDuration segs : Int) : ℚ)) ∧
    ((∃ n : ℤ, (segs.map segment.duration).foldl max 0 = (n : ℚ)) →
      mediaPlaylistTargetDuration true segs =
        some (⌈(segs.map segment.duration).foldl max 0⌉ + 1)) := by
  have hlen : 0 < segs.length := List.length_pos.mpr h
  have hmain : mediaPlaylistTargetDuration true segs =
      some (⌊(segs.map segment.duration).foldl max 0⌋ + 1) := by
    unfold mediaPlaylistTargetDuration liveTargetDuration
    rw [if_pos ⟨hlen, rfl⟩, maxSegDurationFold_eq]
  refine ⟨hmain, ?_, ?_⟩
  · intro s hs
    have h1 : s.duration ≤ maxSegDurationFold segs := by
      rw [maxSegDurationFold_eq]
      exact mem_le_foldl_max _ 0 s.duration (List.mem_map_of_mem segment.duration hs)
    have h2 : maxSegDurationFold segs < (⌊maxSegDurationFold segs⌋ + 1 : ℤ) := by
      push_cast
      exact Int.lt_floor_add_one _
    unfold liveTargetDuration
    calc s.duration ≤ maxSegDurationFold segs := h1
      _ < _ := h2
  · rintro ⟨n, hn⟩
    rw [hmain, hn, Int.floor_intCast, Int.ceil_intCast]

def c5Segs : List segment :=
  [{ url := "u1.m4s".data, duration := Rat.divInt 7 2, durationTS := 7,
     time := 0, number := 1 },
   { url := "u2.m4s".data, duration := Rat.divInt 4 2, durationTS := 4,
     time := 7, number := 2 }]

theorem c5_live_target_duration_witness :
    c5Segs ≠ [] ∧
    (mediaPlaylistTargetDuration true c5Segs =
        some (⌊(c5Segs.map segment.duration).foldl max 0⌋ + 1) ∧
      (∀ s ∈ c5Segs, s.duration < ((liveTargetDuration c5Segs : Int) : ℚ)) ∧
      ((∃ n : ℤ, (c5Segs.map segment.duration).foldl max 0 = (n : ℚ)) →
        mediaPlaylistTargetDuration true c5Segs =
          some (⌈(c5Segs.map segment.duration).foldl max 0⌉ + 1))) :=
  ⟨by decide, c5_live_target_duration c5Segs (by decide)⟩

/-! ## Header-parameter codec (`pkg/httpclient.ParseHeaderParams` and the
`h_` encoding of `buildProxyURL`, claim C6) -/

/-- The header→query encoding used by the proxy URL builders:
`query.Set("h_"+key, value)`, one pair per header. -/
def encodeHeaderParams (h : List (List Char × List Char)) :
    List (List Char × List (List Char)) :=
  h.map (fun kv => ('h' :: '_' :: kv.1, [kv.2]))

/-- `strings.ReplaceAll(name, "_", "-")` (the pattern is a single
character, so it is a character map). -/
def underscoreToHyphen (k : List Char) : List Char :=
  k.map (fun c => if c = '_' then '-' else c)

/-- `ParseHeaderParams` from the source: keep query keys with the `h_`
prefix and a first value, strip the prefix, and map underscores back to
hyphens (the Go map's iteration order is abstracted as the query list
order). -/
def ParseHeaderParams (q : List (List Char × List (List Char))) :
    List (List Char × List Char) :=
  q.filterMap (fun kv =>
    match kv with
    | ('h' :: '_' :: restK, v :: _) => some (underscoreToHyphen restK, v)
    | _ => none)

/-- C6: decoding the `h_`-prefixed query parameters produced by encoding
a header map yields exactly that map (first value per key), for ASCII
keys containing no underscores — the decoder strips the `h_` prefix and
maps underscores back to hyphens, which is the identity on such keys. -/
theorem c6_header_param_round_trip (h : List (List Char × List Char))
    (hascii : ∀ kv ∈ h, ∀ c ∈ kv.1, c.toNat < 128)
    (hunderscore : ∀ kv ∈ h, '_' ∉ kv.1) :
    ParseHeaderParams (encodeHeaderParams h) = h := by
  induction h with
  | nil => rfl
  | cons kv rest ih =>
    have hk : underscoreToHyphen kv.1 = kv.1 := by
      have hpt : ∀ c ∈ kv.1, (if c = '_' then '-' else c) = c := by
        intro c hc
        rw [if_neg]
        intro hcu
        exact hunderscore kv (List.mem_cons_self ..) (hcu ▸ hc)
      exact (List.map_congr_left hpt).trans (List.map_id _)
    have hstep : ParseHeaderParams (encodeHeaderParams (kv :: rest)) =
        (underscoreToHyphen kv.1, kv.2) ::
          ParseHeaderParams (encodeHeaderParams rest) := rfl
    rw [hstep, hk,
      ih (fun b hb => hascii b (List.mem_cons_of_mem kv hb))
        (fun b hb => hunderscore b (List.mem_cons_of_mem kv hb))]

theorem c6_header_param_round_trip_witness :
    (∀ kv ∈ [("User-Agent".data, "test/1.0".data),
        ("Referer".data, "https://origin/".data)], ∀ c ∈ kv.1, c.toNat < 128) ∧
    (∀ kv ∈ [("User-Agent".data, "test/1.0".data),
        ("Referer".data, "https://origin/".data)], '_' ∉ kv.1) ∧
    ParseHeaderParams (encodeHeaderParams
      [("User-Agent".data, "test/1.0".data),
       ("Referer".data, "https://origin/".data)]) =
      [("User-Agent".data, "test/1.0".data),
       ("Referer".data, "https://origin/".data)] :=
  ⟨by decide, by decide,
    c6_header_param_round_trip _ (by decide) (by decide)⟩

/-! ## Recording catalog crash recovery (`pkg/services/recording.go`,
claim C9) -/

/-- The persisted `Recording` value (catalog entry). -/
structure Recording where
  id : String
  name : String
  url : String
  startedAt : Int
  status : String
  duration : Int
  filePath : String
  fileSize : Int
  clearKey : String
  deriving DecidableEq

/-- The per-entry body of the `loadRecordings` loop: flip interrupted
(`recording`) entries to `failed`, then refresh `file_size` from the
filesystem (modelled as `fs : path → Option size`) when the path is
non-empty and the file exists. -/
def recoverRecording (fs : String → Option Int) (rec : Recording) : Recording :=
  let rec1 := if rec.status = "recording" then { rec with status := "failed" } else rec
  if rec.filePath ≠ "" then
    match fs rec.filePath with
    | some sz => { rec1 with fileSize := sz }
    | none => rec1
  else rec1

/-- `loadRecordings` from the source, as the transformation of the
parsed catalog into the in-memory entries (the id-keyed map is
order-abstracted as the list). -/
def loadRecordings (fs : String → Option Int) (catalog : List Recording) :
    List Recording :=
  catalog.map (recoverRecording fs)

/-- What `NewRecordingManager` persists right after a successful load
(`saveRecordings` snapshots the freshly loaded entries). -/
def recoveredCatalogPersisted (fs : String → Option Int)
    (catalog : List Recording) : List Recording :=
  loadRecordings fs catalog

/-- C9: loading a persisted catalog flips every entry whose stored
status is `recording` to `failed`, keeps every other status, refreshes
`file_size` from the on-disk size when the file exists (and keeps the
stored size when it does not), and re-persists the recovered entries so
they are durable. -/
theorem c9_catalog_crash_recovery (fs : String → Option Int)
    (catalog : List Recording) :
    recoveredCatalogPersisted fs catalog = loadRecordings fs catalog ∧
    ∀ rec ∈ catalog,
      recoverRecording fs rec ∈ loadRecordings fs catalog ∧
      (rec.status = "recording" → (recoverRecording fs rec).status = "failed") ∧
      (rec.status ≠ "recording" → (recoverRecording fs rec).status = rec.status) ∧
      (∀ sz, rec.filePath ≠ "" → fs rec.filePath = some sz →
        (recoverRecording fs rec).fileSize = sz) ∧
      (rec.filePath ≠ "" → fs rec.filePath = none →
        (recoverRecording fs rec).fileSize = rec.fileSize) := by
  refine ⟨rfl, ?_⟩
  intro rec hrec
  have hflip : ∀ r1 : Recording,
      (if rec.filePath ≠ "" then
        match fs rec.filePath with
        | some sz => { r1 with fileSize := sz }
        | none => r1
      else r1).status = r1.status := by
    intro r1
    by_cases hp : rec.filePath ≠ ""
    · rw [if_pos hp]
      rcases fs rec.filePath with _ | sz <;> rfl
    · rw [if_neg hp]
  refine ⟨List.mem_map_of_mem (recoverRecording fs) hrec, ?_, ?_, ?_, ?_⟩
  · intro hs
    unfold recoverRecording
    simp only []
    rw [if_pos hs]
    exact hflip _
  · intro hs
    unfold recoverRecording
    simp only []
    rw [if_neg hs]
    exact hflip _
  · intro sz hp hfs
    unfold recoverRecording
    simp only []
    rw [if_pos hp, hfs]
  · intro hp hfs
    unfold recoverRecording
    simp only []
    rw [if_pos hp, hfs]
    by_cases hs : rec.status = "recording"
    · rw [if_pos hs]
    · rw [if_neg hs]

def c9Fs : String → Option Int :=
  fun p => if p = "/rec/a.ts" then some 42 else none

def c9Catalog : List Recording :=
  [{ id := "rec_1", name := "a", url := "http://u/a.m3u8", startedAt := 100,
     status := "recording", duration := 0, filePath := "/rec/a.ts",
     fileSize := 7, clearKey := "" },
   { id := "rec_2", name := "b", url := "http://u/b.m3u8", startedAt := 50,
     status := "completed", duration := 60, filePath := "/rec/b.ts",
     fileSize := 9, clearKey := "" }]

def c9Rec1 : Recording :=
  { id := "rec_1", name := "a", url := "http://u/a.m3u8", startedAt := 100,
    status := "recording", duration := 0, filePath := "/rec/a.ts",
    fileSize := 7, clearKey := "" }

theorem c9_catalog_crash_recovery_witness :
    recoveredCatalogPersisted c9Fs c9Catalog = loadRecordings c9Fs c9Catalog ∧
    c9Rec1.status = "recording" ∧
    (recoverRecording c9Fs c9Rec1).status = "failed" ∧
    c9Fs c9Rec1.filePath = some 42 ∧
    (recoverRecording c9Fs c9Rec1).fileSize = 42 ∧
    recoverRecording c9Fs c9Rec1 ∈ loadRecordings c9Fs c9Catalog := by
  obtain ⟨hmem, hflip, hkeep, hsz, hmiss⟩ :=
    (c9_catalog_crash_recovery c9Fs c9Catalog).2 c9Rec1 (by decide)
  exact ⟨(c9_catalog_crash_recovery c9Fs c9Catalog).1, by decide,
    hflip (by decide), by decide, hsz 42 (by decide) (by decide), hmem⟩

/-! ## HLS manifest rewriting (`pkg/handlers/streams/hls.go`) -/

/-- `strings.HasPrefix p s`-style check (pattern first). -/
def strStarts (p s : List Char) : Bool := p.isPrefixOf s

/-- `strings.Index s sub` (None for -1). -/
def firstIdxOfSub (s sub : List Char) : Option Nat :=
  if sub.isPrefixOf s then some 0
  else
    match s with
    | [] => none
    | _ :: cs => (firstIdxOfSub cs sub).map (· + 1)

/-- `strings.Contains s sub` (`strings.Index s sub >= 0`). -/
def strContains (s sub : List Char) : Bool := (firstIdxOfSub s sub).isSome

/-- `strings.LastIndex s (single char)` (None for -1). -/
def lastIdxOf : List Char → Char → Option Nat
  | [], _ => none
  | a :: as, c =>
    match lastIdxOf as c with
    | some i => some (i + 1)
    | none => if a = c then some 0 else none

/-- `strings.ToLower` (ASCII; the URLs the code compares are ASCII). -/
def toLowerGo (s : List Char) : List Char := s.map Char.toLower

/-- `url.Parse(u).Scheme + "://" + url.Parse(u).Host` for the absolute
`http(s)` URLs this code resolves against (the host ends at the first
`/`, `?` or `#`). -/
def schemeHost (u : List Char) : List Char :=
  match firstIdxOfSub u "://".data with
  | none => "://".data
  | some i =>
    u.take i ++ "://".data ++
      ((u.drop (i + 3)).takeWhile fun c => ¬(c = '/' ∨ c = '?' ∨ c = '#'))

/-- `strings.TrimSuffix result "/"`. -/
def trimSuffixSlash (l : List Char) : List Char :=
  if l.getLast? = some '/' then l.dropLast else l

/-- One `../` step of `urlutil.ResolveURL`: strip a trailing slash and
then cut back to (and including) the last remaining slash. -/
def parentDrop (result : List Char) : List Char :=
  let r1 := trimSuffixSlash result
  match lastIdxOf r1 '/' with
  | some i => if 0 < i then r1.take (i + 1) else r1
  | none => r1

/-- The `../` loop of `urlutil.ResolveURL` (fuel: the remaining length;
each iteration consumes 3 characters). -/
def parentLoopGo : Nat → List Char → List Char → List Char
  | 0, result, remaining => result ++ remaining
  | fuel + 1, result, remaining =>
    if strStarts "../".data remaining then
      parentLoopGo fuel (parentDrop result) (remaining.drop 3)
    else result ++ remaining

/-- `urlutil.ResolveURL` from the source: pure string manipulation that
preserves the base's original encoding; absolute `http(s)` references
pass through, `?`-queries and the last path segment are stripped from
the base, absolute paths are joined to `scheme://host`, `../` prefixes
walk up the base directory. -/
def ResolveURL (urlStr baseURL : List Char) : List Char :=
  if strStarts "http://".data urlStr ∨ strStarts "https://".data urlStr then urlStr
  else
    let base1 :=
      match firstIdxOfSub baseURL "?".data with
      | some i => if 0 < i then baseURL.take i else baseURL
      | none => baseURL
    let base2 :=
      match lastIdxOf base1 '/' with
      | some i => if 0 < i then base1.take (i + 1) else base1
      | none => base1
    if strStarts "/".data urlStr then schemeHost baseURL ++ urlStr
    else if strStarts "../".data urlStr then
      parentLoopGo urlStr.length base2 urlStr
    else base2 ++ urlStr

/-- The HLS handler's `resolveURL` (the `http(s)://` passthrough is
checked again inside `urlutil.ResolveURL`; the parsed base `url.URL` is
modelled by the original URL string, whose `String()` round-trips for
the well-formed absolute URLs the handler receives). -/
def hlsResolveURL (urlStr base : List Char) : List Char :=
  if strStarts "http://".data urlStr ∨ strStarts "https://".data urlStr then urlStr
  else ResolveURL urlStr base

/-- The fixed bypass-CDN substrings from the source. -/
def bypassProxyCDNs : List (List Char) :=
  ["planetary.lovecdn.ru".data, "lovecdn.ru".data, "freeshot".data]

/-- `shouldBypassProxy` from the source. -/
def shouldBypassProxy (urlStr : List Char) : Bool :=
  bypassProxyCDNs.any fun cdn => strContains (toLowerGo urlStr) cdn

/-- `url.QueryEscape` on one character (Go escapes bytes; characters
outside ASCII are treated per code point here — the URLs the rewriter
builds are ASCII). -/
def hexUpperDigit (n : Nat) : Char :=
  if n < 10 then Char.ofNat ('0'.toNat + n) else Char.ofNat ('A'.toNat + n - 10)

def queryEscapeChar (c : Char) : List Char :=
  if ('A' ≤ c ∧ c ≤ 'Z') ∨ ('a' ≤ c ∧ c ≤ 'z') ∨ ('0' ≤ c ∧ c ≤ '9') ∨
      c = '-' ∨ c = '_' ∨ c = '.' ∨ c = '~' then [c]
  else if c = ' ' then ['+']
  else ['%', hexUpperDigit (c.toNat % 256 / 16), hexUpperDigit (c.toNat % 256 % 16)]

def queryEscape (s : List Char) : List Char := (s.map queryEscapeChar).flatten

/-- Byte-wise string order (Go's `sort.Strings` used by
`url.Values.Encode`). -/
def strLe : List Char → List Char → Prop
  | [], _ => True
  | _ :: _, [] => False
  | a :: as, b :: bs =>
    a.toNat < b.toNat ∨ (a.toNat = b.toNat ∧ strLe as bs)

instance : ∀ a b : List Char, Decidable (strLe a b)
  | [], _ => isTrue trivial
  | _ :: _, [] => isFalse id
  | a :: as, b :: bs =>
    have : Decidable (strLe as bs) := instDecidableStrLe as bs
    inferInstanceAs (Decidable (_ ∨ _))

/-- `url.Values.Encode`: keys sorted, `k=v` pairs joined by `&`, both
sides query-escaped. -/
def encodeQuery (pairs : List (List Char × List Char)) : List Char :=
  (List.intercalate "&".data
    ((pairs.insertionSort (fun p q => strLe p.1 q.1)).map
      (fun p => queryEscape p.1 ++ '=' :: queryEscape p.2)))

/-- `buildProxyURL` from the source: `.m3u8` targets go to
`/proxy/manifest.m3u8`, everything else to `/proxy/stream`; the query
carries `url=<target>` plus one `h_<k>=<v>` per forwarded header
(`url.Parse(base+path)` followed by `String()` is modelled as plain
concatenation, exact for the well-formed absolute proxy bases the
handler is configured with). -/
def buildProxyURL (targetURL proxyBaseURL : List Char)
    (headers : List (List Char × List Char)) : List Char :=
  let path :=
    if strContains (toLowerGo targetURL) ".m3u8".data then
      "/proxy/manifest.m3u8".data
    else "/proxy/stream".data
  proxyBaseURL ++ path ++ '?' ::
    encodeQuery (("url".data, targetURL) ::
      headers.map (fun kv => ('h' :: '_' :: kv.1, kv.2)))

/-- `rewriteURITag` from the source: find `URI="`, resolve the quoted
URI, and splice in either the direct resolved URL (bypass) or the
proxied URL; malformed tags are returned unchanged. -/
def rewriteURITag (line baseURL proxyBaseURL : List Char)
    (headers : List (List Char × List Char)) (bypassProxy : Bool) : List Char :=
  match firstIdxOfSub line "URI=\"".data with
  | none => line
  | some st0 =>
    match firstIdxOfSub (line.drop (st0 + 5)) "\"".data with
    | none => line
    | some en =>
      if bypassProxy ∨
          shouldBypassProxy
            (hlsResolveURL ((line.drop (st0 + 5)).take en) baseURL) = true then
        line.take (st0 + 5) ++
          hlsResolveURL ((line.drop (st0 + 5)).take en) baseURL ++
          line.drop (st0 + 5 + en)
      else
        line.take (st0 + 5) ++
          buildProxyURL (hlsResolveURL ((line.drop (st0 + 5)).take en) baseURL)
            proxyBaseURL headers ++
          line.drop (st0 + 5 + en)

/-- The per-line body of the `rewriteManifest` scanner loop. -/
def rewriteLine (originalURL proxyBaseURL : List Char)
    (headers : List (List Char × List Char)) (noBypass : Bool)
    (line : List Char) : List Char :=
  let bypassSegments := !noBypass && shouldBypassProxy originalURL
  if trimSpace line = [] then line
  else if strStarts "#".data line then
    if strContains line "URI=".data then
      rewriteURITag line originalURL proxyBaseURL headers bypassSegments
    else line
  else
    let segmentURL := hlsResolveURL line originalURL
    let isManifest := strContains (toLowerGo segmentURL) ".m3u8".data
    let shouldBypass :=
      !isManifest && (bypassSegments || (!noBypass && shouldBypassProxy segmentURL))
    if shouldBypass then segmentURL
    else buildProxyURL segmentURL proxyBaseURL headers

/-- `bufio.ScanLines` drops one trailing carriage return. -/
def dropCR (l : List Char) : List Char :=
  if l.getLast? = some '\r' then l.dropLast else l

/-- Split off the first line (up to a newline, which is consumed). -/
def breakLine : List Char → List Char × List Char
  | [] => ([], [])
  | c :: cs => if c = '\n' then ([], cs) else
      let (a, b) := breakLine cs
      (c :: a, b)

def splitLinesGo : Nat → List Char → List (List Char)
  | 0, _ => []
  | fuel + 1, s =>
    if s = [] then []
    else
      let (line, rest) := breakLine s
      dropCR line :: splitLinesGo fuel rest

/-- The line sequence produced by `bufio.Scanner` with `ScanLines`: no
trailing empty line for a newline-terminated input, a final unterminated
line is still emitted, and each line loses one trailing `\r`. -/
def splitLines (s : List Char) : List (List Char) := splitLinesGo s.length s

/-- The scanner loop appends `line + "\n"` for every processed line. -/
def joinLines (lines : List (List Char)) : List Char :=
  (lines.map (fun l => l ++ ['\n'])).flatten

/-- `rewriteManifest` from the source: scan lines, rewrite each (blank
lines unchanged; `#` tags via the URI attribute; other lines as segment
URLs with the bypass rule), and emit each with a trailing newline. -/
def rewriteManifest (manifest originalURL proxyBaseURL : List Char)
    (headers : List (List Char × List Char)) (noBypass : Bool) : List Char :=
  joinLines ((splitLines manifest).map
    (rewriteLine originalURL proxyBaseURL headers noBypass))

theorem breakLine_rest_lt : ∀ s : List Char, s ≠ [] →
    (breakLine s).2.length < s.length := by
  intro s
  induction s with
  | nil => intro h; cases h rfl
  | cons c cs ih =>
    intro _
    unfold breakLine
    by_cases hc : c = '\n'
    · rw [if_pos hc]
      simp
    · rw [if_neg hc]
      rcases hcs : cs with _ | ⟨d, ds⟩
      · simp [breakLine]
      · have := ih (by simp [hcs])
        rw [hcs] at this
        simp only [List.length_cons] at this ⊢
        omega

theorem breakLine_append (l rest : List Char) (h : '\n' ∉ l) :
    breakLine (l ++ '\n' :: rest) = (l, rest) := by
  induction l with
  | nil => simp [breakLine]
  | cons c cs ih =>
    have hc : c ≠ '\n' := fun hc => h (hc ▸ List.mem_cons_self ..)
    unfold breakLine
    simp only [List.cons_append]
    rw [if_neg hc, ih (fun hm => h (List.mem_cons_of_mem c hm))]

theorem splitLinesGo_joinLines (ls : List (List Char))
    (h : ∀ l ∈ ls, '\n' ∉ l ∧ dropCR l = l) :
    ∀ fuel, (joinLines ls).length ≤ fuel →
      splitLinesGo fuel (joinLines ls) = ls := by
  induction ls with
  | nil =>
    intro fuel _
    show splitLinesGo fuel [] = []
    rcases fuel with _ | f
    · rfl
    · simp [splitLinesGo]
  | cons l rest ih =>
    intro fuel hfuel
    have hj : joinLines (l :: rest) = l ++ '\n' :: joinLines rest := by
      unfold joinLines
      simp
    have hlen : (joinLines (l :: rest)).length = l.length + 1 + (joinLines rest).length := by
      rw [hj]
      simp
      omega
    rcases fuel with _ | f
    · omega
    · rw [hj]
      show splitLinesGo (f + 1) (l ++ '\n' :: joinLines rest) = l :: rest
      unfold splitLinesGo
      rw [if_neg (by simp)]
      rw [breakLine_append l (joinLines rest) (h l (List.mem_cons_self ..)).1]
      simp only []
      rw [(h l (List.mem_cons_self ..)).2]
      rw [ih (fun b hb => h b (List.mem_cons_of_mem l hb)) f (by omega)]

theorem splitLines_joinLines (ls : List (List Char))
    (h : ∀ l ∈ ls, '\n' ∉ l ∧ dropCR l = l) :
    splitLines (joinLines ls) = ls :=
  splitLinesGo_joinLines ls h (joinLines ls).length (le_refl _)

theorem rewriteURITag_shape (line baseURL proxyBaseURL : List Char)
    (headers : List (List Char × List Char)) (bypass : Bool) :
    rewriteURITag line baseURL proxyBaseURL headers bypass = line ∨
    ∃ i j mid, rewriteURITag line baseURL proxyBaseURL headers bypass =
      line.take i ++ mid ++ line.drop j := by
  unfold rewriteURITag
  split
  · exact Or.inl rfl
  next st0 h1 =>
    split
    · exact Or.inl rfl
    next en h2 =>
      split
      · exact Or.inr ⟨st0 + 5, st0 + 5 + en, _, rfl⟩
      · exact Or.inr ⟨st0 + 5, st0 + 5 + en, _, rfl⟩

theorem buildProxyURL_shape (t b : List Char)
    (h : List (List Char × List Char)) :
    ∃ tail, buildProxyURL t b h = b ++ tail := by
  unfold buildProxyURL
  simp only []
  split <;> rw [List.append_assoc] <;> exact ⟨_, rfl⟩

/-- C7: the HLS rewriter's output has exactly the lines of the input in
order (one rewritten line per input line, re-split identically when the
rewrites introduce no newline/trailing-CR), and every line is either
byte-identical to its input (blank lines; tags without a rewritten URI),
a single splice of a `URI="…"` attribute inside the tag line, or the
whole-line replacement of a segment line by its direct resolved URL or
its proxied URL. -/
theorem c7_manifest_line_preservation
    (manifest originalURL proxyBaseURL : List Char)
    (headers : List (List Char × List Char)) (noBypass : Bool)
    (hok : ∀ l ∈ splitLines manifest,
      '\n' ∉ rewriteLine originalURL proxyBaseURL headers noBypass l ∧
      dropCR (rewriteLine originalURL proxyBaseURL headers noBypass l) =
        rewriteLine originalURL proxyBaseURL headers noBypass l) :
    splitLines (rewriteManifest manifest originalURL proxyBaseURL headers noBypass) =
      (splitLines manifest).map
        (rewriteLine originalURL proxyBaseURL headers noBypass) ∧
    ∀ line ∈ splitLines manifest,
      (trimSpace line = [] →
        rewriteLine originalURL proxyBaseURL headers noBypass line = line) ∧
      (trimSpace line ≠ [] → strStarts "#".data line = true →
        rewriteLine originalURL proxyBaseURL headers noBypass line = line ∨
        ∃ i j mid, rewriteLine originalURL proxyBaseURL headers noBypass line =
          line.take i ++ mid ++ line.drop j) ∧
      (trimSpace line ≠ [] → strStarts "#".data line = false →
        rewriteLine originalURL proxyBaseURL headers noBypass line =
          hlsResolveURL line originalURL ∨
        rewriteLine originalURL proxyBaseURL headers noBypass line =
          buildProxyURL (hlsResolveURL line originalURL) proxyBaseURL headers) := by
  constructor
  · unfold rewriteManifest
    apply splitLines_joinLines
    intro l' hl'
    obtain ⟨l, hl, rfl⟩ := List.mem_map.mp hl'
    exact hok l hl
  · intro line _
    refine ⟨?_, ?_, ?_⟩
    · intro hb
      unfold rewriteLine
      simp only []
      rw [if_pos hb]
    · intro hb hh
      unfold rewriteLine
      simp only []
      rw [if_neg hb, if_pos hh]
      by_cases hc : strContains line "URI=".data = true
      · rw [if_pos hc]
        exact rewriteURITag_shape line originalURL proxyBaseURL headers _
      · rw [Bool.not_eq_true] at hc
        rw [if_neg (by simp [hc])]
        exact Or.inl rfl
    · intro hb hh
      unfold rewriteLine
      simp only []
      rw [if_neg hb, if_neg (by simp [hh])]
      split
      · exact Or.inl rfl
      · exact Or.inr rfl

def c7Manifest : List Char := "#EXTM3U\nseg1.ts\n".data

def c7Orig : List Char := "http://example.com/a/index.m3u8".data

def c7Proxy : List Char := "http://p".data

theorem c7_manifest_line_preservation_witness :
    splitLines (rewriteManifest c7Manifest c7Orig c7Proxy [] false) =
      (splitLines c7Manifest).map (rewriteLine c7Orig c7Proxy [] false) :=
  (c7_manifest_line_preservation c7Manifest c7Orig c7Proxy [] false (by decide)).1

/-- C2: for a segment line (non-blank, not a `#` tag) of a manifest
whose upstream URL matches a bypass CDN and `no_bypass = false`, the
rewritten line is the resolved upstream URL verbatim when that URL does
not contain `.m3u8`, and starts with the proxy base when it does; with
`no_bypass = true` every segment line is rewritten through the proxy. -/
theorem c2_bypass_cdn_segment_lines
    (originalURL proxyBaseURL line : List Char)
    (headers : List (List Char × List Char))
    (hblank : trimSpace line ≠ [])
    (htag : strStarts "#".data line = false) :
    (shouldBypassProxy originalURL = true →
      (strContains (toLowerGo (hlsResolveURL line originalURL)) ".m3u8".data
          = false →
        rewriteLine originalURL proxyBaseURL headers false line =
          hlsResolveURL line originalURL) ∧
      (strContains (toLowerGo (hlsResolveURL line originalURL)) ".m3u8".data
          = true →
        ∃ tail, rewriteLine originalURL proxyBaseURL headers false line =
          proxyBaseURL ++ tail)) ∧
    rewriteLine originalURL proxyBaseURL headers true line =
      buildProxyURL (hlsResolveURL line originalURL) proxyBaseURL headers := by
  constructor
  · intro hb
    constructor
    · intro hm
      unfold rewriteLine
      simp only []
      rw [if_neg hblank, if_neg (by simp [htag]), if_pos (by simp [hb, hm])]
    · intro hm
      unfold rewriteLine
      simp only []
      rw [if_neg hblank, if_neg (by simp [htag]), if_neg (by simp [hm])]
      exact buildProxyURL_shape _ _ _
  · unfold rewriteLine
    simp only []
    rw [if_neg hblank, if_neg (by simp [htag]), if_neg (by simp)]

def c2Line : List Char := "seg1.ts".data

def c2Orig : List Char := "https://cdn.freeshot.live/ch/index.m3u8".data

def c2Proxy : List Char := "http://p".data

theorem c2_bypass_cdn_segment_lines_witness :
    rewriteLine c2Orig c2Proxy [] false c2Line = hlsResolveURL c2Line c2Orig ∧
    rewriteLine c2Orig c2Proxy [] true c2Line =
      buildProxyURL (hlsResolveURL c2Line c2Orig) c2Proxy [] := by
  have h := c2_bypass_cdn_segment_lines c2Orig c2Proxy c2Line []
    (by decide) (by decide)
  exact ⟨(h.1 (by decide)).1 (by decide), h.2⟩
